import Mathlib

/-!
Verification development for the task-graph core (`pkg/mod/tasktree.go`).

The Go code is shallowly embedded: the pointer-linked `TaskNode` graph is
represented as a flat store of nodes keyed by the graph identity under which
`buildGraphNodeMap` stores each node; parent/child pointers become key
references looked up in the store.  In-place mutation (only performed by
`GetNextTaskIds`) becomes an explicit updated store threaded through the walk.
Unbounded recursion (`dfsWalk`, `bfsCheckCycle`, which the Go code performs
with no visited set and which need not terminate on cyclic inputs) is given a
fuel parameter; `none` means the fuel ran out (or a key reference dangled,
which cannot happen for graphs produced by `BuildRootNode`).
-/

namespace Fastflow

/-- The reserved identity of the synthetic root node (`virtualTaskRootID`). -/
def virtualTaskRootID : String := "_virtual_root"

/-- The reserved end-marker task identity (`TaskEndID`). -/
def TaskEndID : String := "End"

/-- Task-instance status vocabulary (`entity.TaskInstanceStatus`). -/
inductive TaskInstanceStatus where
  | Init
  | Canceled
  | Running
  | Ending
  | Failed
  | Retrying
  | Success
  | Blocked
  | Skipped
  | Continue
  deriving DecidableEq, Repr, Fintype

/-- Run-level status vocabulary (`TreeStatus`, a string type in Go; the four
constants are the only values ever assigned). -/
inductive TreeStatus where
  | Running
  | Success
  | Failed
  | Blocked
  deriving DecidableEq, Repr

/-- One graph vertex (`TaskNode`).  `key` is the graph identity under which the
node is stored (the key of `buildGraphNodeMap`'s map); `children` and `parents`
hold keys of other nodes in the same store, standing for the Go pointers. -/
structure TaskNode where
  key : String
  TaskInsID : String
  Status : TaskInstanceStatus
  children : List String
  parents : List String
  deriving DecidableEq, Repr

/-- The flat node store standing for the pointer-linked graph.  Graphs produced
by `BuildRootNode` have pairwise distinct keys and contain the virtual root. -/
structure Graph where
  nodes : List TaskNode
  deriving DecidableEq, Repr

/-- Pointer dereference: look a node up by its store key. -/
def Graph.find? (g : Graph) (k : String) : Option TaskNode :=
  g.nodes.find? (fun n => n.key == k)

/-- In-place mutation of one node: replace the node carrying `n.key` by `n`.
Graphs built by `BuildRootNode` have unique keys, so exactly one node (the
Go pointer's target) is replaced. -/
def Graph.set (g : Graph) (n : TaskNode) : Graph :=
  ⟨g.nodes.map (fun m => if m.key == n.key then n else m)⟩

/-- `TaskNode.CanExecuteChild`: children may proceed only past a node that is
terminal-success or terminal-skipped. -/
def TaskNode.CanExecuteChild (t : TaskNode) : Bool :=
  t.Status == TaskInstanceStatus.Success || t.Status == TaskInstanceStatus.Skipped

/-- `TaskNode.CanBeExecuted`: no parents, or every parent lets children
proceed.  A dangling parent reference (impossible for built graphs) counts as
not letting children proceed, mirroring that Go would dereference a valid
pointer here. -/
def Graph.CanBeExecuted (g : Graph) (t : TaskNode) : Bool :=
  t.parents.isEmpty ||
    t.parents.all (fun pk =>
      match g.find? pk with
      | some p => p.CanExecuteChild
      | none => false)

/-- `TaskNode.Executable`: the status permits (re-)running and every parent
(if any) lets children proceed. -/
def Graph.Executable (g : Graph) (t : TaskNode) : Bool :=
  if t.Status == TaskInstanceStatus.Init ||
      t.Status == TaskInstanceStatus.Retrying ||
      t.Status == TaskInstanceStatus.Continue ||
      t.Status == TaskInstanceStatus.Ending then
    t.parents.isEmpty ||
      t.parents.all (fun pk =>
        match g.find? pk with
        | some p => p.CanExecuteChild
        | none => false)
  else false

/-- The child loop of `dfsWalk`, parameterized by the recursive call `walk`.
A child with more than one parent is skipped unless all of its parents let
children proceed; a `false` from the walk of one child aborts the whole loop
(and walk).  The walk callback may mutate the graph, which is threaded. -/
def dfsChildren {σ : Type} (walk : Graph → String → σ → Option (σ × Graph × Bool))
    (g : Graph) (cs : List String) (s : σ) : Option (σ × Graph × Bool) :=
  match cs with
  | [] => some (s, g, true)
  | ck :: rest =>
    match g.find? ck with
    | none => none
    | some c =>
      if c.parents.length > 1 && !(g.CanBeExecuted c) then
        dfsChildren walk g rest s
      else
        match walk g ck s with
        | none => none
        | some (s', g', false) => some (s', g', false)
        | some (s', g', true) => dfsChildren walk g' rest s'

/-- `dfsWalk`: visit the node at key `k` (unless it is the virtual root),
then, gated on the node's status (unless `walkChildrenIgnoreStatus`), walk its
children left to right.  The callback threads caller state `σ` and the graph
(for the one mutating caller) and returns `false` to abort the whole walk.
The node is looked up again after the callback, mirroring that Go reads the
node's fields through its pointer after `walkFunc` may have mutated it. -/
def dfsWalk {σ : Type} (f : σ → Graph → TaskNode → σ × Graph × Bool)
    (walkChildrenIgnoreStatus : Bool) :
    Nat → Graph → String → σ → Option (σ × Graph × Bool)
  | 0, _, _, _ => none
  | fuel + 1, g, k, s =>
    match g.find? k with
    | none => none
    | some root =>
      match (if root.TaskInsID == virtualTaskRootID then (s, g, true) else f s g root) with
      | (s', g', false) => some (s', g', false)
      | (s', g', true) =>
        match g'.find? k with
        | none => none
        | some root' =>
          if !walkChildrenIgnoreStatus && !root'.CanExecuteChild then
            some (s', g', true)
          else
            dfsChildren (fun g k s => dfsWalk f walkChildrenIgnoreStatus fuel g k s)
              g' root'.children s'

/-- `walkNode` is a thin wrapper around `dfsWalk` discarding its boolean. -/
def walkNode {σ : Type} (f : σ → Graph → TaskNode → σ × Graph × Bool)
    (walkChildrenIgnoreStatus : Bool) (fuel : Nat) (g : Graph) (k : String) (s : σ) :
    Option (σ × Graph) :=
  (dfsWalk f walkChildrenIgnoreStatus fuel g k s).map (fun r => (r.1, r.2.1))

/-- A stored task-instance record (`entity.TaskInstance`), restricted to the
fields this file's functions read. -/
structure TaskInstance where
  ID : String
  DagInsID : String
  TaskID : String
  Status : TaskInstanceStatus
  deriving DecidableEq, Repr

/-- Filter for `Store.ListTaskInstance` (`ListTaskInstanceInput`), restricted
to the fields used by the fast path. -/
structure ListTaskInstanceInput where
  DagInsID : String
  TaskID : String
  deriving DecidableEq, Repr

/-- The external store collaborator consulted by `ComputeStatus`'s fast path.
`none` stands for a Go call returning a non-nil error. -/
structure StoreModel where
  GetTaskIns : String → Option TaskInstance
  ListTaskInstance : ListTaskInstanceInput → Option (List TaskInstance)

/-- The fast-path test of `ComputeStatus`: the store finds the first root
child's instance, then exactly one end-marker instance for the same dag
instance, and that instance is Success.  `t` is the walk's start node (the
virtual root by convention; Go indexes `t.children[0]`, which panics on a
rootless graph — graphs built by `BuildRootNode` always have a root child). -/
def endTaskFastPath (store : StoreModel) (g : Graph) (t : TaskNode) : Bool :=
  match t.children.head? with
  | none => false
  | some c0k =>
    match g.find? c0k with
    | none => false
    | some c0 =>
      match store.GetTaskIns c0.TaskInsID with
      | none => false
      | some taskIns =>
        match store.ListTaskInstance ⟨taskIns.DagInsID, TaskEndID⟩ with
        | some [endTask] => endTask.Status == TaskInstanceStatus.Success
        | _ => false

/-- The visit callback of `ComputeStatus`'s full walk.  The walker state is
the pair of Go locals `(status, srcTaskInsId)`; its initial `status` value
never escapes (the caller returns Success whenever `srcTaskInsId` stays
empty), so we seed it with Success. -/
def computeStatusVisit (s : TreeStatus × String) (g : Graph) (node : TaskNode) :
    (TreeStatus × String) × Graph × Bool :=
  match node.Status with
  | TaskInstanceStatus.Failed | TaskInstanceStatus.Canceled =>
    ((TreeStatus.Failed, node.TaskInsID), g, true)
  | TaskInstanceStatus.Blocked =>
    ((TreeStatus.Blocked, node.TaskInsID), g, true)
  | TaskInstanceStatus.Success | TaskInstanceStatus.Skipped =>
    (s, g, true)
  | _ =>
    ((TreeStatus.Running, node.TaskInsID), g, false)

/-- The full path of `ComputeStatus`: the gated walk with
`computeStatusVisit`, returning Success when no source node was recorded. -/
def computeStatusFullPath (fuel : Nat) (g : Graph) (k : String) :
    Option ((TreeStatus × String) × Graph) :=
  match dfsWalk computeStatusVisit false fuel g k (TreeStatus.Success, "") with
  | none => none
  | some ((st, src), g', _) =>
    if src != "" then some ((st, src), g') else some ((TreeStatus.Success, ""), g')

/-- `TaskNode.ComputeStatus`: fast path via the store, else the gated full
walk.  The final graph is returned alongside (Go mutates in place; this
operation leaves the graph unchanged, proved below). -/
def ComputeStatus (store : StoreModel) (fuel : Nat) (g : Graph) (k : String) :
    Option ((TreeStatus × String) × Graph) :=
  match g.find? k with
  | none => none
  | some t =>
    if endTaskFastPath store g t then some ((TreeStatus.Success, ""), g)
    else computeStatusFullPath fuel g k

/-- The visit callback of `GetExecutableTaskIds`: append every executable
node's identity and keep walking. -/
def getExecutableVisit (s : List String) (g : Graph) (node : TaskNode) :
    List String × Graph × Bool :=
  (if g.Executable node then s ++ [node.TaskInsID] else s, g, true)

/-- `TaskNode.GetExecutableTaskIds`: collect the identities of all executable
nodes over the gated walk. -/
def GetExecutableTaskIds (fuel : Nat) (g : Graph) (k : String) :
    Option (List String × Graph) :=
  walkNode getExecutableVisit false fuel g k []

/-- The visit callback of `GetNextTaskIds`: on the node matching the record's
identity, overwrite its status; if the new status is Init return the node
itself, else if the new status does not let children proceed return nothing,
else return the executable direct children — in every matched case the walk
stops.  Non-matching nodes continue the walk. -/
def getNextVisit (rec : TaskInstance) (s : List String × Bool) (g : Graph)
    (node : TaskNode) : (List String × Bool) × Graph × Bool :=
  if rec.ID == node.TaskInsID then
    let node' := { node with Status := rec.Status }
    let g' := g.set node'
    if node'.Status == TaskInstanceStatus.Init then
      ((s.1 ++ [node.TaskInsID], true), g', false)
    else if !node'.CanExecuteChild then
      ((s.1, true), g', false)
    else
      ((node'.children.foldl (fun acc ck =>
          match g'.find? ck with
          | some c => if g'.Executable c then acc ++ [c.TaskInsID] else acc
          | none => acc) s.1, true), g', false)
  else (s, g, true)

/-- `TaskNode.GetNextTaskIds`: sync the record's status into the tree and
return the next executable identities plus the found flag and the (possibly
mutated) graph. -/
def GetNextTaskIds (fuel : Nat) (g : Graph) (k : String) (rec : TaskInstance) :
    Option ((List String × Bool) × Graph) :=
  walkNode (getNextVisit rec) false fuel g k ([], false)

/-- The capability set `TaskInfoGetter` exposed by task descriptors: identity,
graph identity, declared dependency graph-identities, current status. -/
structure TaskInfoGetter where
  Depend : List String
  ID : String
  GraphID : String
  Status : TaskInstanceStatus
  deriving DecidableEq, Repr

/-- Construction errors of `BuildRootNode` (distinct Go error values). -/
inductive BuildErr where
  | repeatedTaskId (id : String)
  | missingDepend (taskGraphId dependId : String)
  | noStartNodes
  deriving DecidableEq, Repr

/-- `NewTaskNodeFromGetter`, stored under the descriptor's graph identity. -/
def NewTaskNodeFromGetter (t : TaskInfoGetter) : TaskNode :=
  { key := t.GraphID, TaskInsID := t.ID, Status := t.Status,
    children := [], parents := [] }

/-- The insertion loop of `buildGraphNodeMap`: fail on a repeated graph
identity, else store the fresh node under it. -/
def buildGraphNodeMapGo (acc : List TaskNode) :
    List TaskInfoGetter → Except BuildErr (List TaskNode)
  | [] => Except.ok acc
  | t :: rest =>
    if (acc.find? (fun n => n.key == t.GraphID)).isSome then
      Except.error (BuildErr.repeatedTaskId t.GraphID)
    else
      buildGraphNodeMapGo (acc ++ [NewTaskNodeFromGetter t]) rest

/-- `buildGraphNodeMap`: the graph-identity-keyed node store, or the repeated
identity error. -/
def buildGraphNodeMap (tasks : List TaskInfoGetter) : Except BuildErr (List TaskNode) :=
  buildGraphNodeMapGo [] tasks

/-- `TaskNode.AppendChild` applied through the store: append `c` to the
children of the node stored under `k`. -/
def storeAppendChild (s : List TaskNode) (k c : String) : List TaskNode :=
  s.map (fun n => if n.key == k then { n with children := n.children ++ [c] } else n)

/-- `TaskNode.AppendParent` applied through the store: append `p` to the
parents of the node stored under `k`. -/
def storeAppendParent (s : List TaskNode) (k p : String) : List TaskNode :=
  s.map (fun n => if n.key == k then { n with parents := n.parents ++ [p] } else n)

/-- The inner dependency loop of `BuildRootNode` for one descriptor with graph
identity `gid`: each declared dependency must resolve in the store, and adds
the parent→child edge in both directions. -/
def linkDeps (gid : String) (s : List TaskNode) :
    List String → Except BuildErr (List TaskNode)
  | [] => Except.ok s
  | d :: rest =>
    match s.find? (fun n => n.key == d) with
    | none => Except.error (BuildErr.missingDepend gid d)
    | some _ => linkDeps gid (storeAppendParent (storeAppendChild s d gid) gid d) rest

/-- The main loop of `BuildRootNode`: a zero-dependency descriptor becomes a
child of the virtual root (and gets the root as parent); a descriptor with
dependencies is linked below each of them.  `rc` accumulates the root's
children in order. -/
def linkTasksGo (s : List TaskNode) (rc : List String) :
    List TaskInfoGetter → Except BuildErr (List TaskNode × List String)
  | [] => Except.ok (s, rc)
  | t :: rest =>
    if t.Depend.isEmpty then
      linkTasksGo (storeAppendParent s t.GraphID virtualTaskRootID)
        (rc ++ [t.GraphID]) rest
    else
      match linkDeps t.GraphID s t.Depend with
      | Except.error e => Except.error e
      | Except.ok s' => linkTasksGo s' rc rest

/-- The virtual root node (identity the reserved sentinel, status fixed to
Success) carrying the given children. -/
def rootNode (rc : List String) : TaskNode :=
  { key := virtualTaskRootID, TaskInsID := virtualTaskRootID,
    Status := TaskInstanceStatus.Success, children := rc, parents := [] }

/-- `BuildRootNode`: build the keyed node store, link all edges, and fail when
the virtual root ends up with no children.  The virtual root (status Success)
is stored first, so `Graph.find? virtualTaskRootID` finds it. -/
def BuildRootNode (tasks : List TaskInfoGetter) : Except BuildErr Graph :=
  match buildGraphNodeMap tasks with
  | Except.error e => Except.error e
  | Except.ok s =>
    match linkTasksGo s [] tasks with
    | Except.error e => Except.error e
    | Except.ok (s', rc) =>
      if rc.isEmpty then Except.error BuildErr.noStartNodes
      else Except.ok ⟨rootNode rc :: s'⟩

/-- Parent-completion test of `bfsCheckCycle`: every parent's `TaskInsID` is
in the visited set. -/
def isParentCompleted (g : Graph) (visited : List String) (node : TaskNode) : Bool :=
  node.parents.all (fun pk =>
    match g.find? pk with
    | some p => visited.contains p.TaskInsID
    | none => true)

/-- Overwrite-or-insert into the `incomplete` map, modelled as an association
list from `TaskInsID` to store key (Go maps `TaskInsID` to the node pointer). -/
def incompleteInsert (inc : List (String × String)) (tid k : String) :
    List (String × String) :=
  if inc.any (fun e => e.1 == tid) then
    inc.map (fun e => if e.1 == tid then (tid, k) else e)
  else inc ++ [(tid, k)]

/-- One generation of `bfsCheckCycle`'s queue loop: pop each node; park it in
`incomplete` when a parent is unvisited, else mark it visited, unpark it, and
enqueue its children.  Returns the next generation's queue and the updated
visited set and incomplete map. -/
def bfsGen (g : Graph) :
    List String → List String → List (String × String) →
    List String × List String × List (String × String)
  | [], visited, incomplete => ([], visited, incomplete)
  | k :: rest, visited, incomplete =>
    match g.find? k with
    | none => bfsGen g rest visited incomplete
    | some cur =>
      if isParentCompleted g visited cur then
        let visited' := if visited.contains cur.TaskInsID then visited
          else cur.TaskInsID :: visited
        let incomplete' := incomplete.filter (fun e => e.1 != cur.TaskInsID)
        let r := bfsGen g rest visited' incomplete'
        (cur.children ++ r.1, r.2)
      else
        bfsGen g rest visited (incompleteInsert incomplete cur.TaskInsID k)

/-- `bfsCheckCycle`: recurse over successive queue generations until the queue
drains; `none` when the fuel (bounding the recursion depth, which Go leaves
unbounded) runs out. -/
def bfsCheckCycle (g : Graph) :
    Nat → List String → List String → List (String × String) →
    Option (List String × List (String × String))
  | _, [], visited, incomplete => some (visited, incomplete)
  | 0, _ :: _, _, _ => none
  | fuel + 1, queue, visited, incomplete =>
    let r := bfsGen g queue visited incomplete
    bfsCheckCycle g fuel r.1 r.2.1 r.2.2

/-- `TaskNode.HasCycle` from the node at key `k`: run the wave propagation and
return a node left in `incomplete`, identified by its `TaskInsID` (Go returns
the node pointer of an arbitrary map entry; we determinize to the first entry
of the association list).  The outer `none` means the fuel ran out. -/
def HasCycle (fuel : Nat) (g : Graph) (k : String) : Option (Option String) :=
  match bfsCheckCycle g fuel [k] [] [] with
  | none => none
  | some (_, incomplete) => some ((incomplete.head?).map (fun e => e.1))

/-! ## Specification-side traversal order

`visitList` computes, from the graph alone, the depth-first left-to-right
order in which the gated walk (`walkChildrenIgnoreStatus = false`, the mode
used by every operation of this file) presents nodes to its callback when no
callback ever aborts.  A callback that aborts sees a prefix of this list; the
master lemma `dfsWalk_eq_foldStop` makes this precise for every callback that
leaves the graph unchanged whenever it continues the walk. -/

/-- Children part of the gated visit order, parameterized by the recursive
visit of one node. -/
def visitChildren (visit : Graph → String → Option (List TaskNode)) (g : Graph) :
    List String → Option (List TaskNode)
  | [] => some []
  | ck :: rest =>
    match g.find? ck with
    | none => none
    | some c =>
      if c.parents.length > 1 && !(g.CanBeExecuted c) then
        visitChildren visit g rest
      else
        match visit g ck with
        | none => none
        | some l => (visitChildren visit g rest).map (fun l2 => l ++ l2)

/-- The gated depth-first left-to-right visit order from the node at key `k`:
the node itself (unless it is the virtual root), followed, when its status
lets children proceed, by the orders of its non-skipped children. -/
def visitList : Nat → Graph → String → Option (List TaskNode)
  | 0, _, _ => none
  | fuel + 1, g, k =>
    match g.find? k with
    | none => none
    | some root =>
      let pre := if root.TaskInsID == virtualTaskRootID then [] else [root]
      if !root.CanExecuteChild then some pre
      else (visitChildren (fun g k => visitList fuel g k) g root.children).map
        (fun l => pre ++ l)

/-- Run a walk callback over an explicit list of nodes, threading the state
and graph and stopping at the first `false`. -/
def foldStop {σ : Type} (f : σ → Graph → TaskNode → σ × Graph × Bool) :
    Graph → List TaskNode → σ → σ × Graph × Bool
  | g, [], s => (s, g, true)
  | g, n :: ns, s =>
    match f s g n with
    | (s', g', true) => foldStop f g' ns s'
    | (s', g', false) => (s', g', false)

theorem foldStop_append {σ : Type} (f : σ → Graph → TaskNode → σ × Graph × Bool)
    (l₁ l₂ : List TaskNode) (g : Graph) (s : σ) :
    foldStop f g (l₁ ++ l₂) s =
      match foldStop f g l₁ s with
      | (s', g', true) => foldStop f g' l₂ s'
      | (s', g', false) => (s', g', false) := by
  induction l₁ generalizing g s with
  | nil => simp [foldStop]
  | cons n ns ih =>
    simp only [List.cons_append, foldStop]
    rcases hf : f s g n with ⟨s', g', b⟩
    cases b <;> simp [ih]

theorem foldStop_pure {σ : Type} (f : σ → Graph → TaskNode → σ × Graph × Bool)
    (hpure : ∀ s g n s' g', f s g n = (s', g', true) → g' = g) :
    ∀ (l : List TaskNode) (g : Graph) (s : σ) (s' : σ) (g' : Graph),
      foldStop f g l s = (s', g', true) → g' = g := by
  intro l
  induction l with
  | nil =>
    intro g s s' g' h
    have h2 : (s, g, true) = (s', g', true) := by simpa [foldStop] using h
    exact (congrArg (fun r => r.2.1) h2).symm
  | cons n ns ih =>
    intro g s s' g' h
    simp only [foldStop] at h
    rcases hf : f s g n with ⟨s₁, g₁, b⟩
    rw [hf] at h
    cases b with
    | false => simp at h
    | true => exact (ih g₁ s₁ s' g' h).trans (hpure s g n s₁ g₁ hf)

theorem dfsChildren_eq_foldStop {σ : Type}
    (f : σ → Graph → TaskNode → σ × Graph × Bool)
    (hpure : ∀ s g n s' g', f s g n = (s', g', true) → g' = g)
    (walk : Graph → String → σ → Option (σ × Graph × Bool))
    (visit : Graph → String → Option (List TaskNode))
    (hwalk : ∀ g k s l, visit g k = some l → walk g k s = some (foldStop f g l s)) :
    ∀ (cs : List String) (g : Graph) (s : σ) (l : List TaskNode),
      visitChildren visit g cs = some l →
      dfsChildren walk g cs s = some (foldStop f g l s) := by
  intro cs
  induction cs with
  | nil =>
    intro g s l h
    simp only [visitChildren] at h
    cases h
    simp [dfsChildren, foldStop]
  | cons ck rest ih =>
    intro g s l h
    simp only [visitChildren] at h
    simp only [dfsChildren]
    rcases hf : g.find? ck with _ | c
    · simp only [hf] at h
      exact absurd h (by simp)
    · simp only [hf] at h ⊢
      by_cases hskip : (c.parents.length > 1 && !(g.CanBeExecuted c)) = true
      · rw [if_pos hskip] at h
        rw [if_pos hskip]
        exact ih g s l h
      · rw [if_neg hskip] at h
        rw [if_neg hskip]
        rcases hv : visit g ck with _ | lc
        · simp only [hv] at h
          exact absurd h (by simp)
        rcases hvr : visitChildren visit g rest with _ | lr
        · simp only [hv, hvr] at h
          exact absurd h (by simp)
        simp only [hv, hvr, Option.map_some'] at h
        cases h
        rw [hwalk g ck s lc hv]
        rcases hfold : foldStop f g lc s with ⟨s', g', b⟩
        cases b with
        | false =>
          simp only []
          rw [foldStop_append f lc lr g s, hfold]
        | true =>
          have hg : g' = g := foldStop_pure f hpure lc g s s' g' hfold
          subst hg
          simp only []
          rw [ih g' s' lr hvr, foldStop_append f lc lr g' s, hfold]
theorem dfsWalk_eq_foldStop {σ : Type}
    (f : σ → Graph → TaskNode → σ × Graph × Bool)
    (hpure : ∀ s g n s' g', f s g n = (s', g', true) → g' = g) :
    ∀ (fuel : Nat) (g : Graph) (k : String) (s : σ) (l : List TaskNode),
      visitList fuel g k = some l →
      dfsWalk f false fuel g k s = some (foldStop f g l s) := by
  intro fuel
  induction fuel with
  | zero => intro g k s l h; exact absurd h (by simp [visitList])
  | succ fuel ih =>
    intro g k s l h
    have hchildren := dfsChildren_eq_foldStop f hpure
      (fun g k s => dfsWalk f false fuel g k s) (fun g k => visitList fuel g k)
      (fun g k s l hl => ih g k s l hl)
    simp only [visitList] at h
    simp only [dfsWalk]
    rcases hf : g.find? k with _ | root
    · simp only [hf] at h
      exact absurd h (by simp)
    simp only [hf] at h ⊢
    by_cases hvr : (root.TaskInsID == virtualTaskRootID) = true
    · simp only [hvr, if_pos] at h ⊢
      simp only [hf]
      by_cases hgate : root.CanExecuteChild = true
      · simp only [hgate, Bool.not_true, Bool.false_and, Bool.and_false] at h ⊢
        rw [if_neg Bool.false_ne_true] at h ⊢
        rcases hvc : visitChildren (fun g k => visitList fuel g k) g root.children
          with _ | lc
        · simp only [hvc] at h
          exact absurd h (by simp)
        simp only [hvc, Option.map_some', List.nil_append] at h
        cases h
        exact hchildren root.children g s _ hvc
      · have hgate' : root.CanExecuteChild = false := Bool.eq_false_iff.mpr hgate
        simp only [hgate', Bool.not_false, Bool.true_and, if_pos] at h ⊢
        cases h
        simp [foldStop]
    · have hvr' : (root.TaskInsID == virtualTaskRootID) = false := Bool.eq_false_iff.mpr hvr
      simp only [hvr'] at h ⊢
      rw [if_neg Bool.false_ne_true] at h ⊢
      rcases hcall : f s g root with ⟨s₁, g₁, b⟩
      cases b with
      | false =>
        simp only [hcall]
        by_cases hgate : root.CanExecuteChild = true
        · simp only [hgate, Bool.not_true] at h
          rw [if_neg Bool.false_ne_true] at h
          rcases hvc : visitChildren (fun g k => visitList fuel g k) g root.children
            with _ | lc
          · simp only [hvc] at h
            exact absurd h (by simp)
          simp only [hvc, Option.map_some'] at h
          cases h
          simp [foldStop, hcall]
        · have hgate' : root.CanExecuteChild = false := Bool.eq_false_iff.mpr hgate
          simp only [hgate', Bool.not_false, if_pos] at h
          cases h
          simp [foldStop, hcall]
      | true =>
        have hg : g₁ = g := hpure s g root s₁ g₁ hcall
        rw [hg] at hcall
        rw [hg]
        simp only [hf]
        by_cases hgate : root.CanExecuteChild = true
        · simp only [hgate, Bool.not_true, Bool.false_and, Bool.and_false] at h ⊢
          rw [if_neg Bool.false_ne_true] at h ⊢
          rcases hvc : visitChildren (fun g k => visitList fuel g k) g root.children
            with _ | lc
          · simp only [hvc] at h
            exact absurd h (by simp)
          simp only [hvc, Option.map_some'] at h
          cases h
          rw [hchildren root.children g s₁ _ hvc]
          simp [foldStop, hcall]
        · have hgate' : root.CanExecuteChild = false := Bool.eq_false_iff.mpr hgate
          simp only [hgate', Bool.not_false, Bool.true_and, if_pos] at h ⊢
          cases h
          simp [foldStop, hcall]


/-! ## Claim C1: status rollup -/

/-- For every status, `computeStatusVisit` leaves the graph unchanged. -/
theorem computeStatusVisit_graph (s : TreeStatus × String) (g : Graph) (n : TaskNode) :
    (computeStatusVisit s g n).2.1 = g := by
  cases hn : n.Status <;> simp [computeStatusVisit, hn]

theorem computeStatusVisit_pure :
    ∀ s g n s' g', computeStatusVisit s g n = (s', g', true) → g' = g := by
  intro s g n s' g' h
  have h2 := computeStatusVisit_graph s g n
  rw [h] at h2
  exact h2

/-- Amended rollup rule, following the corrected wording of the claim: walking
the gated visit order left to right, a Failed or Canceled node records verdict
Failed at that node and the walk continues; a Blocked node records Blocked at
that node and continues; an in-flight node ends the walk at once with Running
at that node; Success and Skipped change nothing; the result is the last
recorded verdict, or Success with an empty source when none was recorded. -/
def rollupAmended : Option (TreeStatus × String) → List TaskNode → TreeStatus × String
  | acc, [] => acc.getD (TreeStatus.Success, "")
  | acc, n :: ns =>
    match n.Status with
    | TaskInstanceStatus.Failed | TaskInstanceStatus.Canceled =>
      rollupAmended (some (TreeStatus.Failed, n.TaskInsID)) ns
    | TaskInstanceStatus.Blocked =>
      rollupAmended (some (TreeStatus.Blocked, n.TaskInsID)) ns
    | TaskInstanceStatus.Success | TaskInstanceStatus.Skipped =>
      rollupAmended acc ns
    | _ => (TreeStatus.Running, n.TaskInsID)

/-- The full-path fold of `ComputeStatus` computes the amended rollup rule,
provided no visited node carries the empty identity (the Go code encodes
"no source recorded" as the empty source string). -/
theorem computeStatus_fold_rollup :
    ∀ (l : List TaskNode) (g : Graph) (st0 : TreeStatus) (src0 : String)
      (acc : Option (TreeStatus × String)),
      (if src0 = "" then acc = none else acc = some (st0, src0)) →
      (∀ n ∈ l, n.TaskInsID ≠ "") →
      (foldStop computeStatusVisit g l (st0, src0)).2.1 = g ∧
      (if (foldStop computeStatusVisit g l (st0, src0)).1.2 ≠ "" then
          (foldStop computeStatusVisit g l (st0, src0)).1
        else (TreeStatus.Success, "")) = rollupAmended acc l := by
  intro l
  induction l with
  | nil =>
    intro g st0 src0 acc hacc _
    by_cases hsrc : src0 = ""
    · rw [if_pos hsrc] at hacc
      subst hacc hsrc
      simp [foldStop, rollupAmended]
    · rw [if_neg hsrc] at hacc
      subst hacc
      simp [foldStop, rollupAmended, hsrc]
  | cons n ns ih =>
    intro g st0 src0 acc hacc hids
    have hid : n.TaskInsID ≠ "" := hids n (List.mem_cons_self n ns)
    have hids' : ∀ m ∈ ns, m.TaskInsID ≠ "" := fun m hm => hids m (List.mem_cons_of_mem n hm)
    cases hn : n.Status with
    | Failed =>
      have : foldStop computeStatusVisit g (n :: ns) (st0, src0) =
          foldStop computeStatusVisit g ns (TreeStatus.Failed, n.TaskInsID) := by
        simp [foldStop, computeStatusVisit, hn]
      rw [this]
      have := ih g TreeStatus.Failed n.TaskInsID (some (TreeStatus.Failed, n.TaskInsID))
        (by rw [if_neg hid]) hids'
      simpa [rollupAmended, hn] using this
    | Canceled =>
      have : foldStop computeStatusVisit g (n :: ns) (st0, src0) =
          foldStop computeStatusVisit g ns (TreeStatus.Failed, n.TaskInsID) := by
        simp [foldStop, computeStatusVisit, hn]
      rw [this]
      have := ih g TreeStatus.Failed n.TaskInsID (some (TreeStatus.Failed, n.TaskInsID))
        (by rw [if_neg hid]) hids'
      simpa [rollupAmended, hn] using this
    | Blocked =>
      have : foldStop computeStatusVisit g (n :: ns) (st0, src0) =
          foldStop computeStatusVisit g ns (TreeStatus.Blocked, n.TaskInsID) := by
        simp [foldStop, computeStatusVisit, hn]
      rw [this]
      have := ih g TreeStatus.Blocked n.TaskInsID (some (TreeStatus.Blocked, n.TaskInsID))
        (by rw [if_neg hid]) hids'
      simpa [rollupAmended, hn] using this
    | Success =>
      have : foldStop computeStatusVisit g (n :: ns) (st0, src0) =
          foldStop computeStatusVisit g ns (st0, src0) := by
        simp [foldStop, computeStatusVisit, hn]
      rw [this]
      have := ih g st0 src0 acc hacc hids'
      simpa [rollupAmended, hn] using this
    | Skipped =>
      have : foldStop computeStatusVisit g (n :: ns) (st0, src0) =
          foldStop computeStatusVisit g ns (st0, src0) := by
        simp [foldStop, computeStatusVisit, hn]
      rw [this]
      have := ih g st0 src0 acc hacc hids'
      simpa [rollupAmended, hn] using this
    | Init =>
      have : foldStop computeStatusVisit g (n :: ns) (st0, src0) =
          ((TreeStatus.Running, n.TaskInsID), g, false) := by
        simp [foldStop, computeStatusVisit, hn]
      rw [this]
      simp [rollupAmended, hn, hid]
    | Running =>
      have : foldStop computeStatusVisit g (n :: ns) (st0, src0) =
          ((TreeStatus.Running, n.TaskInsID), g, false) := by
        simp [foldStop, computeStatusVisit, hn]
      rw [this]
      simp [rollupAmended, hn, hid]
    | Ending =>
      have : foldStop computeStatusVisit g (n :: ns) (st0, src0) =
          ((TreeStatus.Running, n.TaskInsID), g, false) := by
        simp [foldStop, computeStatusVisit, hn]
      rw [this]
      simp [rollupAmended, hn, hid]
    | Retrying =>
      have : foldStop computeStatusVisit g (n :: ns) (st0, src0) =
          ((TreeStatus.Running, n.TaskInsID), g, false) := by
        simp [foldStop, computeStatusVisit, hn]
      rw [this]
      simp [rollupAmended, hn, hid]
    | Continue =>
      have : foldStop computeStatusVisit g (n :: ns) (st0, src0) =
          ((TreeStatus.Running, n.TaskInsID), g, false) := by
        simp [foldStop, computeStatusVisit, hn]
      rw [this]
      simp [rollupAmended, hn, hid]


/-- Claim C1 (amended): with the fast path off, `ComputeStatus` returns the
amended rollup of the gated visit order and leaves the graph unchanged. -/
theorem claim1_theorem (store : StoreModel) (fuel : Nat) (g : Graph) (k : String)
    (t : TaskNode) (l : List TaskNode)
    (ht : g.find? k = some t)
    (hfast : endTaskFastPath store g t = false)
    (hv : visitList fuel g k = some l)
    (hids : ∀ n ∈ l, n.TaskInsID ≠ "") :
    ComputeStatus store fuel g k = some (rollupAmended none l, g) := by
  have hwalk := dfsWalk_eq_foldStop computeStatusVisit computeStatusVisit_pure
    fuel g k (TreeStatus.Success, "") l hv
  have hfold := computeStatus_fold_rollup l g TreeStatus.Success "" none (by simp) hids
  simp only [ComputeStatus, computeStatusFullPath, ht, hfast]
  rw [if_neg Bool.false_ne_true]
  rw [hwalk]
  rcases hr : foldStop computeStatusVisit g l (TreeStatus.Success, "") with ⟨⟨st, src⟩, g', b⟩
  rw [hr] at hfold
  obtain ⟨hg', hroll⟩ := hfold
  have hg2 : g' = g := by simpa using hg'
  by_cases hsrc : src = ""
  · subst hsrc
    rw [if_neg (by simp)] at hroll
    simp [← hroll, hg2]
  · rw [if_pos hsrc] at hroll
    have hbne : (src != "") = true := bne_iff_ne.mpr hsrc
    simp [hbne, ← hroll, hg2]
/-! ## Concrete fixtures -/

/-- Descriptor builder for fixtures: graph identity doubles as instance
identity. -/
def mkTaskInfo (gid : String) (deps : List String) (st : TaskInstanceStatus) :
    TaskInfoGetter :=
  { Depend := deps, ID := gid, GraphID := gid, Status := st }

/-- A store whose every lookup fails. -/
def storeFail : StoreModel := ⟨fun _ => none, fun _ => none⟩

/-- Fixture: two independent tasks, A Failed and B Blocked, A first. -/
def fbTasks : List TaskInfoGetter :=
  [mkTaskInfo "A" [] TaskInstanceStatus.Failed,
   mkTaskInfo "B" [] TaskInstanceStatus.Blocked]

def fbRoot : TaskNode :=
  ⟨virtualTaskRootID, virtualTaskRootID, TaskInstanceStatus.Success, ["A", "B"], []⟩

def fbNodeA : TaskNode :=
  ⟨"A", "A", TaskInstanceStatus.Failed, [], [virtualTaskRootID]⟩

def fbNodeB : TaskNode :=
  ⟨"B", "B", TaskInstanceStatus.Blocked, [], [virtualTaskRootID]⟩

/-- The graph `BuildRootNode` produces from `fbTasks`. -/
def gFB : Graph := ⟨[fbRoot, fbNodeA, fbNodeB]⟩

/-- Claim C1 counterexample: on `gFB` the gated walk meets the Failed node A
first and the Blocked node B second, the fast path is off, yet `ComputeStatus`
returns Blocked sourced at B — not, as the claim states, Failed sourced at the
first qualifying node A with the walk stopped there. -/
theorem claim1_counterexample :
    BuildRootNode fbTasks = Except.ok gFB ∧
    visitList 3 gFB virtualTaskRootID = some [fbNodeA, fbNodeB] ∧
    fbNodeA.Status = TaskInstanceStatus.Failed ∧
    ComputeStatus storeFail 3 gFB virtualTaskRootID =
      some ((TreeStatus.Blocked, "B"), gFB) ∧
    ((TreeStatus.Blocked, "B") : TreeStatus × String) ≠ (TreeStatus.Failed, "A") := by
  exact ⟨rfl, rfl, rfl, rfl, by decide⟩

/-- Claim C1 witness: the amended rollup theorem applied to `gFB`. -/
theorem claim1_witness :
    ComputeStatus storeFail 3 gFB virtualTaskRootID =
      some (rollupAmended none [fbNodeA, fbNodeB], gFB) :=
  claim1_theorem storeFail 3 gFB virtualTaskRootID fbRoot [fbNodeA, fbNodeB]
    rfl rfl rfl (by decide)

/-! ## Claim C2: duplicate identities in the executable set -/

/-- Fixture: the diamond A→B, A→C, B→D, C→D with A, B, C Success and D Init. -/
def diamondTasks : List TaskInfoGetter :=
  [mkTaskInfo "A" [] TaskInstanceStatus.Success,
   mkTaskInfo "B" ["A"] TaskInstanceStatus.Success,
   mkTaskInfo "C" ["A"] TaskInstanceStatus.Success,
   mkTaskInfo "D" ["B", "C"] TaskInstanceStatus.Init]

/-- The graph `BuildRootNode` produces from `diamondTasks`. -/
def gDiamond : Graph :=
  ⟨[⟨virtualTaskRootID, virtualTaskRootID, TaskInstanceStatus.Success, ["A"], []⟩,
    ⟨"A", "A", TaskInstanceStatus.Success, ["B", "C"], [virtualTaskRootID]⟩,
    ⟨"B", "B", TaskInstanceStatus.Success, ["D"], ["A"]⟩,
    ⟨"C", "C", TaskInstanceStatus.Success, ["D"], ["A"]⟩,
    ⟨"D", "D", TaskInstanceStatus.Init, [], ["B", "C"]⟩]⟩

/-- Claim C2 (code bug): on the built diamond with every parent Success and
the join node D executable, `GetExecutableTaskIds` returns D's identity twice
— once per parent through which the walk reaches D — contradicting the
function's own documentation of a unique id collection. -/
theorem claim2_theorem :
    BuildRootNode diamondTasks = Except.ok gDiamond ∧
    GetExecutableTaskIds 10 gDiamond virtualTaskRootID =
      some (["D", "D"], gDiamond) ∧
    ¬ (["D", "D"] : List String).Nodup := by
  exact ⟨rfl, rfl, by decide⟩


/-! ## Claim C4: the executable predicate and the diamond graph -/

/-- Spec-side children-may-proceed test on a raw status. -/
def childrenMayProceed (s : TaskInstanceStatus) : Bool :=
  s == TaskInstanceStatus.Success || s == TaskInstanceStatus.Skipped

theorem find_canExec_iff (g : Graph) (pk : String) :
    (match g.find? pk with
      | some p => p.CanExecuteChild
      | none => false) = true ↔
    ∃ p, g.find? pk = some p ∧
      (p.Status = TaskInstanceStatus.Success ∨ p.Status = TaskInstanceStatus.Skipped) := by
  cases hf : g.find? pk with
  | none => simp [hf]
  | some p => simp [hf, TaskNode.CanExecuteChild]

/-- Fixture: the diamond with B and C statuses as parameters. -/
def diamondTasksP (sb sc : TaskInstanceStatus) : List TaskInfoGetter :=
  [mkTaskInfo "A" [] TaskInstanceStatus.Success,
   mkTaskInfo "B" ["A"] sb,
   mkTaskInfo "C" ["A"] sc,
   mkTaskInfo "D" ["B", "C"] TaskInstanceStatus.Init]

/-- The graph `BuildRootNode` produces from `diamondTasksP sb sc`. -/
def gDiamondP (sb sc : TaskInstanceStatus) : Graph :=
  ⟨[⟨virtualTaskRootID, virtualTaskRootID, TaskInstanceStatus.Success, ["A"], []⟩,
    ⟨"A", "A", TaskInstanceStatus.Success, ["B", "C"], [virtualTaskRootID]⟩,
    ⟨"B", "B", sb, ["D"], ["A"]⟩,
    ⟨"C", "C", sc, ["D"], ["A"]⟩,
    ⟨"D", "D", TaskInstanceStatus.Init, [], ["B", "C"]⟩]⟩

/-- Claim C4: a node is executable iff its status is one of Init, Retrying,
Continue, Ending and it has no parents or every parent is Success or Skipped;
and on the diamond A→B, A→C, B→D, C→D with D Init, D is absent from the
executable set while either B or C is not yet Success/Skipped, and appears in
it once both are. -/
theorem claim4_theorem :
    (∀ (g : Graph) (n : TaskNode),
      g.Executable n = true ↔
        ((n.Status = TaskInstanceStatus.Init ∨ n.Status = TaskInstanceStatus.Retrying ∨
          n.Status = TaskInstanceStatus.Continue ∨ n.Status = TaskInstanceStatus.Ending) ∧
         (n.parents = [] ∨ ∀ pk ∈ n.parents, ∃ p, g.find? pk = some p ∧
            (p.Status = TaskInstanceStatus.Success ∨ p.Status = TaskInstanceStatus.Skipped)))) ∧
    (∀ sb sc, BuildRootNode (diamondTasksP sb sc) = Except.ok (gDiamondP sb sc)) ∧
    (∀ sb sc, ¬(childrenMayProceed sb = true ∧ childrenMayProceed sc = true) →
      (GetExecutableTaskIds 10 (gDiamondP sb sc) virtualTaskRootID).map
        (fun r => r.1.contains "D") = some false) ∧
    (∀ sb sc, childrenMayProceed sb = true → childrenMayProceed sc = true →
      (GetExecutableTaskIds 10 (gDiamondP sb sc) virtualTaskRootID).map
        (fun r => r.1.contains "D") = some true) := by
  refine ⟨?_, ?_, ?_, ?_⟩
  · intro g n
    simp only [Graph.Executable]
    by_cases hs : (n.Status == TaskInstanceStatus.Init ||
        n.Status == TaskInstanceStatus.Retrying ||
        n.Status == TaskInstanceStatus.Continue ||
        n.Status == TaskInstanceStatus.Ending) = true
    · rw [if_pos hs]
      have hs' : n.Status = TaskInstanceStatus.Init ∨ n.Status = TaskInstanceStatus.Retrying ∨
          n.Status = TaskInstanceStatus.Continue ∨ n.Status = TaskInstanceStatus.Ending := by
        simpa [or_assoc] using hs
      simp only [Bool.or_eq_true, List.isEmpty_iff, List.all_eq_true]
      constructor
      · rintro (h | h)
        · exact ⟨hs', Or.inl h⟩
        · exact ⟨hs', Or.inr (fun pk hpk => (find_canExec_iff g pk).mp (h pk hpk))⟩
      · rintro ⟨-, h | h⟩
        · exact Or.inl h
        · exact Or.inr (fun pk hpk => (find_canExec_iff g pk).mpr (h pk hpk))
    · rw [if_neg hs]
      have hs' : ¬(n.Status = TaskInstanceStatus.Init ∨ n.Status = TaskInstanceStatus.Retrying ∨
          n.Status = TaskInstanceStatus.Continue ∨ n.Status = TaskInstanceStatus.Ending) := by
        simpa [or_assoc] using hs
      simp [hs']
  · intro sb sc
    rfl
  · decide
  · decide
/-- Claim C4 witness: with C Running, D is not collected; with C Skipped
(and B Success) it is. -/
theorem claim4_witness :
    ¬(childrenMayProceed TaskInstanceStatus.Success = true ∧
      childrenMayProceed TaskInstanceStatus.Running = true) ∧
    (GetExecutableTaskIds 10 (gDiamondP TaskInstanceStatus.Success TaskInstanceStatus.Running)
      virtualTaskRootID).map (fun r => r.1.contains "D") = some false ∧
    (GetExecutableTaskIds 10 (gDiamondP TaskInstanceStatus.Success TaskInstanceStatus.Skipped)
      virtualTaskRootID).map (fun r => r.1.contains "D") = some true :=
  ⟨by decide, claim4_theorem.2.2.1 TaskInstanceStatus.Success TaskInstanceStatus.Running (by decide),
    claim4_theorem.2.2.2 TaskInstanceStatus.Success TaskInstanceStatus.Skipped (by decide) (by decide)⟩

/-! ## Claim C7: fast-path error tolerance -/

/-- Claim C7: every failure along the fast path (store instance lookup fails;
end-marker listing fails; not exactly one end-marker record; the single record
not Success) turns the fast path off, in which case `ComputeStatus` computes
its result by the full gated walk instead of propagating an error; and when
the fast path succeeds, `ComputeStatus` returns Success with an empty source
for any fuel — in particular without consulting any node status. -/
theorem claim7_theorem :
    (∀ store fuel g k t, g.find? k = some t → endTaskFastPath store g t = false →
      ComputeStatus store fuel g k = computeStatusFullPath fuel g k) ∧
    (∀ (store : StoreModel) (g : Graph) (t : TaskNode) c0k c0,
      t.children.head? = some c0k → g.find? c0k = some c0 →
      store.GetTaskIns c0.TaskInsID = none →
      endTaskFastPath store g t = false) ∧
    (∀ (store : StoreModel) (g : Graph) (t : TaskNode) c0k c0 ins,
      t.children.head? = some c0k → g.find? c0k = some c0 →
      store.GetTaskIns c0.TaskInsID = some ins →
      store.ListTaskInstance ⟨ins.DagInsID, TaskEndID⟩ = none →
      endTaskFastPath store g t = false) ∧
    (∀ (store : StoreModel) (g : Graph) (t : TaskNode) c0k c0 ins l,
      t.children.head? = some c0k → g.find? c0k = some c0 →
      store.GetTaskIns c0.TaskInsID = some ins →
      store.ListTaskInstance ⟨ins.DagInsID, TaskEndID⟩ = some l →
      l.length ≠ 1 →
      endTaskFastPath store g t = false) ∧
    (∀ (store : StoreModel) (g : Graph) (t : TaskNode) c0k c0 ins e,
      t.children.head? = some c0k → g.find? c0k = some c0 →
      store.GetTaskIns c0.TaskInsID = some ins →
      store.ListTaskInstance ⟨ins.DagInsID, TaskEndID⟩ = some [e] →
      e.Status ≠ TaskInstanceStatus.Success →
      endTaskFastPath store g t = false) ∧
    (∀ store fuel g k t, g.find? k = some t → endTaskFastPath store g t = true →
      ComputeStatus store fuel g k = some ((TreeStatus.Success, ""), g)) := by
  refine ⟨?_, ?_, ?_, ?_, ?_, ?_⟩
  · intro store fuel g k t ht hfast
    simp only [ComputeStatus, ht, hfast]
    rw [if_neg Bool.false_ne_true]
  · intro store g t c0k c0 hc0k hc0 hget
    simp only [endTaskFastPath, hc0k, hc0, hget]
  · intro store g t c0k c0 ins hc0k hc0 hget hlist
    simp only [endTaskFastPath, hc0k, hc0, hget, hlist]
  · intro store g t c0k c0 ins l hc0k hc0 hget hlist hlen
    simp only [endTaskFastPath, hc0k, hc0, hget, hlist]
    match l, hlen with
    | [], _ => rfl
    | [e], h => exact absurd rfl h
    | e₁ :: e₂ :: rest, _ => rfl
  · intro store g t c0k c0 ins e hc0k hc0 hget hlist hst
    simp only [endTaskFastPath, hc0k, hc0, hget, hlist]
    simpa using hst
  · intro store fuel g k t ht hfast
    simp only [ComputeStatus, ht, hfast]
    simp

/-- Claim C7 witness: a concrete store exercising the failing-lookup fallback
and a concrete store exercising the successful short-circuit (at fuel 0, so no
walk can have been consulted). -/
theorem claim7_witness :
    ComputeStatus storeFail 3 gFB virtualTaskRootID =
      computeStatusFullPath 3 gFB virtualTaskRootID ∧
    ComputeStatus
      ⟨fun _ => some ⟨"A", "dag", "A", TaskInstanceStatus.Failed⟩,
       fun _ => some [⟨"End", "dag", "End", TaskInstanceStatus.Success⟩]⟩
      0 gFB virtualTaskRootID = some ((TreeStatus.Success, ""), gFB) :=
  ⟨claim7_theorem.1 storeFail 3 gFB virtualTaskRootID fbRoot rfl rfl,
   claim7_theorem.2.2.2.2.2
     ⟨fun _ => some ⟨"A", "dag", "A", TaskInstanceStatus.Failed⟩,
      fun _ => some [⟨"End", "dag", "End", TaskInstanceStatus.Success⟩]⟩
     0 gFB virtualTaskRootID fbRoot rfl rfl⟩


/-! ## Claims C5, C8, C10: the incremental advancer -/

/-- `getNextVisit` leaves the graph unchanged whenever it continues the walk:
it returns `true` only on a non-matching node. -/
theorem getNextVisit_pure (rec : TaskInstance) :
    ∀ s g n s' g', getNextVisit rec s g n = (s', g', true) → g' = g := by
  intro s g n s' g' h
  simp only [getNextVisit] at h
  by_cases hm : (rec.ID == n.TaskInsID) = true
  · rw [if_pos hm] at h
    by_cases h1 : (({ n with Status := rec.Status } : TaskNode).Status ==
        TaskInstanceStatus.Init) = true
    · rw [if_pos h1] at h
      exact absurd (congrArg (fun r => r.2.2) h) (by simp)
    · rw [if_neg h1] at h
      by_cases h2 : (!({ n with Status := rec.Status } : TaskNode).CanExecuteChild) = true
      · rw [if_pos h2] at h
        exact absurd (congrArg (fun r => r.2.2) h) (by simp)
      · rw [if_neg h2] at h
        exact absurd (congrArg (fun r => r.2.2) h) (by simp)
  · rw [if_neg hm] at h
    exact (congrArg (fun r => r.2.1) h).symm

/-- Over a list without the searched identity, the advancer's fold is a
no-op that keeps walking. -/
theorem foldStop_getNext_nomatch (rec : TaskInstance) :
    ∀ (l : List TaskNode) (g : Graph) (s : List String × Bool),
      (∀ m ∈ l, m.TaskInsID ≠ rec.ID) →
      foldStop (getNextVisit rec) g l s = (s, g, true) := by
  intro l
  induction l with
  | nil => intro g s _; rfl
  | cons m ms ih =>
    intro g s hno
    have hm : (rec.ID == m.TaskInsID) = false := by
      have := hno m (List.mem_cons_self m ms)
      simp [BEq.beq]
      exact fun hc => this hc.symm
    simp only [foldStop, getNextVisit, hm]
    rw [if_neg (by simp [hm])]
    exact ih g s (fun x hx => hno x (List.mem_cons_of_mem m hx))

/-- Spec-side description of the advancer's child scan: the identities of
exactly those direct children that satisfy the executable predicate. -/
def specExecutableChildren (g' : Graph) (cks : List String) : List String :=
  ((cks.filterMap (fun ck => g'.find? ck)).filter (fun c => g'.Executable c)).map
    (fun c => c.TaskInsID)

theorem getNext_children_fold (g' : Graph) :
    ∀ (cks : List String) (acc : List String),
      cks.foldl (fun acc ck =>
        match g'.find? ck with
        | some c => if g'.Executable c then acc ++ [c.TaskInsID] else acc
        | none => acc) acc
      = acc ++ specExecutableChildren g' cks := by
  intro cks
  induction cks with
  | nil => intro acc; simp [specExecutableChildren]
  | cons ck rest ih =>
    intro acc
    simp only [List.foldl]
    rcases hf : g'.find? ck with _ | c
    · simp only [hf]
      rw [ih acc]
      simp [specExecutableChildren, hf]
    · simp only [hf]
      by_cases he : g'.Executable c = true
      · rw [if_pos he, ih (acc ++ [c.TaskInsID])]
        simp [specExecutableChildren, hf, he]
      · rw [if_neg he, ih acc]
        have he' : g'.Executable c = false := Bool.eq_false_iff.mpr he
        simp [specExecutableChildren, hf, he']
/-- Keys other than the updated node's key read the same through `Graph.set`. -/
theorem Graph_find_set_ne (g : Graph) (n : TaskNode) (k' : String) (h : k' ≠ n.key) :
    (g.set n).find? k' = g.find? k' := by
  show (⟨g.nodes.map (fun m => if m.key == n.key then n else m)⟩ : Graph).find? k'
      = g.find? k'
  simp only [Graph.find?]
  induction g.nodes with
  | nil => rfl
  | cons m ms ih =>
    simp only [List.map_cons, List.find?]
    by_cases hm : (m.key == n.key) = true
    · rw [if_pos hm]
      have hmk : m.key = n.key := by simpa using hm
      have h1 : (n.key == k') = false := by
        simp only [beq_eq_false_iff_ne]
        exact fun hc => h hc.symm
      have h2 : (m.key == k') = false := by
        rw [hmk]
        exact h1
      rw [h1, h2]
      exact ih
    · rw [if_neg hm]
      cases h2 : (m.key == k') with
      | true => rfl
      | false => exact ih

/-- Claim C5: when the record's status lets children proceed (Success or
Skipped) and the gated walk reaches a first node carrying the record's
identity, the advancer overwrites that node's status and returns found
together with exactly the identities of the direct children satisfying the
executable predicate in the updated graph (in particular nothing deeper). -/
theorem claim5_theorem (fuel : Nat) (g : Graph) (k : String) (rec : TaskInstance)
    (l₁ : List TaskNode) (n : TaskNode) (l₂ : List TaskNode)
    (hv : visitList fuel g k = some (l₁ ++ n :: l₂))
    (h₁ : ∀ m ∈ l₁, m.TaskInsID ≠ rec.ID)
    (hn : n.TaskInsID = rec.ID)
    (hst : rec.Status = TaskInstanceStatus.Success ∨ rec.Status = TaskInstanceStatus.Skipped) :
    GetNextTaskIds fuel g k rec =
      some ((specExecutableChildren (g.set { n with Status := rec.Status }) n.children, true),
        g.set { n with Status := rec.Status }) := by
  have hwalk := dfsWalk_eq_foldStop (getNextVisit rec) (getNextVisit_pure rec)
    fuel g k ([], false) _ hv
  simp only [GetNextTaskIds, walkNode, hwalk]
  rw [foldStop_append]
  rw [foldStop_getNext_nomatch rec l₁ g ([], false) h₁]
  have hbeq : (rec.ID == n.TaskInsID) = true := by simp [hn]
  have hinit : (({ n with Status := rec.Status } : TaskNode).Status ==
      TaskInstanceStatus.Init) = false := by
    rcases hst with h | h <;> simp [h]
  have hcec : ({ n with Status := rec.Status } : TaskNode).CanExecuteChild = true := by
    rcases hst with h | h <;> simp [TaskNode.CanExecuteChild, h]
  simp only [foldStop, getNextVisit, hbeq, if_pos]
  rw [if_neg (by simp [hinit]), if_neg (by simp [hcec])]
  rw [getNext_children_fold]
  simp

/-- Claim C8: when the record's status is Init and the gated walk reaches a
first node carrying the record's identity, the advancer sets that node's
status to Init and returns found with that node's own identity as the sole
executable result; the statuses of all its children (distinct nodes of the
store) read unchanged. -/
theorem claim8_theorem (fuel : Nat) (g : Graph) (k : String) (rec : TaskInstance)
    (l₁ : List TaskNode) (n : TaskNode) (l₂ : List TaskNode)
    (hv : visitList fuel g k = some (l₁ ++ n :: l₂))
    (h₁ : ∀ m ∈ l₁, m.TaskInsID ≠ rec.ID)
    (hn : n.TaskInsID = rec.ID)
    (hst : rec.Status = TaskInstanceStatus.Init)
    (hkc : ∀ ck ∈ n.children, ck ≠ n.key) :
    GetNextTaskIds fuel g k rec =
      some (([rec.ID], true), g.set { n with Status := TaskInstanceStatus.Init }) ∧
    ∀ ck ∈ n.children,
      (g.set { n with Status := TaskInstanceStatus.Init }).find? ck = g.find? ck := by
  constructor
  · have hwalk := dfsWalk_eq_foldStop (getNextVisit rec) (getNextVisit_pure rec)
      fuel g k ([], false) _ hv
    simp only [GetNextTaskIds, walkNode, hwalk]
    rw [foldStop_append]
    rw [foldStop_getNext_nomatch rec l₁ g ([], false) h₁]
    have hbeq : (rec.ID == n.TaskInsID) = true := by simp [hn]
    simp only [foldStop, getNextVisit, hbeq, if_pos]
    rw [if_pos (by simp [hst])]
    simp [hst, hn]
  · intro ck hck
    exact Graph_find_set_ne g _ ck (hkc ck hck)

/-- Claim C10: when the record's identity belongs to a node of the store but
no node the gated walk visits carries it, the advancer reports found = false
with an empty executable list and the graph is unchanged. -/
theorem claim10_theorem (fuel : Nat) (g : Graph) (k : String) (rec : TaskInstance)
    (l : List TaskNode)
    (hv : visitList fuel g k = some l)
    (_hpresent : ∃ m ∈ g.nodes, m.TaskInsID = rec.ID)
    (hno : ∀ m ∈ l, m.TaskInsID ≠ rec.ID) :
    GetNextTaskIds fuel g k rec = some (([], false), g) := by
  have hwalk := dfsWalk_eq_foldStop (getNextVisit rec) (getNextVisit_pure rec)
    fuel g k ([], false) _ hv
  simp only [GetNextTaskIds, walkNode, hwalk]
  rw [foldStop_getNext_nomatch rec l g ([], false) hno]
  rfl
/-- Claim C5 witness: on the diamond with B Running and C Success, the event
"B succeeded" unlocks exactly the join child D. -/
theorem claim5_witness :
    GetNextTaskIds 10 (gDiamondP TaskInstanceStatus.Running TaskInstanceStatus.Success)
      virtualTaskRootID ⟨"B", "dag", "B", TaskInstanceStatus.Success⟩ =
    some ((specExecutableChildren
        ((gDiamondP TaskInstanceStatus.Running TaskInstanceStatus.Success).set
          ⟨"B", "B", TaskInstanceStatus.Success, ["D"], ["A"]⟩) ["D"], true),
      (gDiamondP TaskInstanceStatus.Running TaskInstanceStatus.Success).set
        ⟨"B", "B", TaskInstanceStatus.Success, ["D"], ["A"]⟩) :=
  claim5_theorem 10 (gDiamondP TaskInstanceStatus.Running TaskInstanceStatus.Success)
    virtualTaskRootID ⟨"B", "dag", "B", TaskInstanceStatus.Success⟩
    [⟨"A", "A", TaskInstanceStatus.Success, ["B", "C"], [virtualTaskRootID]⟩]
    ⟨"B", "B", TaskInstanceStatus.Running, ["D"], ["A"]⟩
    [⟨"C", "C", TaskInstanceStatus.Success, ["D"], ["A"]⟩]
    rfl (by decide) rfl (Or.inl rfl)

/-- Claim C8 witness: on the all-success diamond, an Init event for D returns
D itself as the sole executable result. -/
theorem claim8_witness :
    GetNextTaskIds 10 (gDiamondP TaskInstanceStatus.Success TaskInstanceStatus.Success)
      virtualTaskRootID ⟨"D", "dag", "D", TaskInstanceStatus.Init⟩ =
      some ((["D"], true),
        (gDiamondP TaskInstanceStatus.Success TaskInstanceStatus.Success).set
          ⟨"D", "D", TaskInstanceStatus.Init, [], ["B", "C"]⟩) ∧
    ∀ ck ∈ (⟨"D", "D", TaskInstanceStatus.Init, [], ["B", "C"]⟩ : TaskNode).children,
      ((gDiamondP TaskInstanceStatus.Success TaskInstanceStatus.Success).set
        ⟨"D", "D", TaskInstanceStatus.Init, [], ["B", "C"]⟩).find? ck =
      (gDiamondP TaskInstanceStatus.Success TaskInstanceStatus.Success).find? ck :=
  claim8_theorem 10 (gDiamondP TaskInstanceStatus.Success TaskInstanceStatus.Success)
    virtualTaskRootID ⟨"D", "dag", "D", TaskInstanceStatus.Init⟩
    [⟨"A", "A", TaskInstanceStatus.Success, ["B", "C"], [virtualTaskRootID]⟩,
     ⟨"B", "B", TaskInstanceStatus.Success, ["D"], ["A"]⟩]
    ⟨"D", "D", TaskInstanceStatus.Init, [], ["B", "C"]⟩
    [⟨"C", "C", TaskInstanceStatus.Success, ["D"], ["A"]⟩,
     ⟨"D", "D", TaskInstanceStatus.Init, [], ["B", "C"]⟩]
    rfl (by decide) rfl rfl (by decide)

/-- Fixture: A Failed with child B Init; the gated walk never reaches B. -/
def nrTasks : List TaskInfoGetter :=
  [mkTaskInfo "A" [] TaskInstanceStatus.Failed,
   mkTaskInfo "B" ["A"] TaskInstanceStatus.Init]

/-- The graph `BuildRootNode` produces from `nrTasks`. -/
def gNR : Graph :=
  ⟨[⟨virtualTaskRootID, virtualTaskRootID, TaskInstanceStatus.Success, ["A"], []⟩,
    ⟨"A", "A", TaskInstanceStatus.Failed, ["B"], [virtualTaskRootID]⟩,
    ⟨"B", "B", TaskInstanceStatus.Init, [], ["A"]⟩]⟩

/-- Claim C10 witness: a success event for the unreached node B is reported
not-found, with nothing executable and the graph untouched. -/
theorem claim10_witness :
    GetNextTaskIds 5 gNR virtualTaskRootID ⟨"B", "dag", "B", TaskInstanceStatus.Success⟩ =
      some (([], false), gNR) :=
  claim10_theorem 5 gNR virtualTaskRootID ⟨"B", "dag", "B", TaskInstanceStatus.Success⟩
    [⟨"A", "A", TaskInstanceStatus.Failed, ["B"], [virtualTaskRootID]⟩]
    rfl (by decide) (by decide)

/-! ## Claim C9: frame conditions -/

theorem Graph_find?_key (g : Graph) (k : String) (n : TaskNode)
    (h : g.find? k = some n) : n.key = k := by
  have h' : g.nodes.find? (fun m => m.key == k) = some n := h
  simpa using List.find?_some h'

/-- Frame lemma, children part: if the walk of one child leaves the graph
unchanged on `true` and establishes `R` on `false`, so does the child loop. -/
theorem dfsChildren_frame {σ : Type} (R : Graph → Graph → Prop)
    (walk : Graph → String → σ → Option (σ × Graph × Bool))
    (hwalk : ∀ g k s s' g' b, walk g k s = some (s', g', b) →
      (b = true → g' = g) ∧ (b = false → R g g')) :
    ∀ (cs : List String) (g : Graph) (s : σ) (s' : σ) (g' : Graph) (b : Bool),
      dfsChildren walk g cs s = some (s', g', b) →
      (b = true → g' = g) ∧ (b = false → R g g') := by
  intro cs
  induction cs with
  | nil =>
    intro g s s' g' b h
    simp only [dfsChildren] at h
    cases h
    exact ⟨fun _ => rfl, fun hb => Bool.noConfusion hb⟩
  | cons ck rest ih =>
    intro g s s' g' b h
    simp only [dfsChildren] at h
    rcases hf : g.find? ck with _ | c
    · rw [hf] at h
      exact absurd h (by simp)
    rw [hf] at h
    simp only [] at h
    by_cases hskip : (c.parents.length > 1 && !(g.CanBeExecuted c)) = true
    · rw [if_pos hskip] at h
      exact ih g s s' g' b h
    · rw [if_neg hskip] at h
      rcases hw : walk g ck s with _ | ⟨s₁, g₁, b₁⟩
      · rw [hw] at h
        exact absurd h (by simp)
      rw [hw] at h
      cases b₁ with
      | false =>
        simp only [] at h
        cases h
        exact ⟨fun hb => Bool.noConfusion hb,
          fun _ => (hwalk g ck s _ _ _ hw).2 rfl⟩
      | true =>
        simp only [] at h
        have hg₁ : g₁ = g := (hwalk g ck s _ _ _ hw).1 rfl
        subst hg₁
        exact ih g₁ s₁ s' g' b h
  
/-- Frame lemma: a walk whose callback leaves the graph unchanged whenever it
continues and establishes `R` whenever it aborts (on a node stored under its
own key) ends with the graph unchanged (result `true`) or related by `R`
(result `false`). -/
theorem dfsWalk_frame {σ : Type} (R : Graph → Graph → Prop)
    (f : σ → Graph → TaskNode → σ × Graph × Bool) (ign : Bool)
    (hcont : ∀ s g n s' g', f s g n = (s', g', true) → g' = g)
    (hstop : ∀ s g n s' g', g.find? n.key = some n → f s g n = (s', g', false) → R g g') :
    ∀ (fuel : Nat) (g : Graph) (k : String) (s : σ) (s' : σ) (g' : Graph) (b : Bool),
      dfsWalk f ign fuel g k s = some (s', g', b) →
      (b = true → g' = g) ∧ (b = false → R g g') := by
  intro fuel
  induction fuel with
  | zero => intro g k s s' g' b h; exact absurd h (by simp [dfsWalk])
  | succ fuel ih =>
    intro g k s s' g' b h
    simp only [dfsWalk] at h
    rcases hf : g.find? k with _ | root
    · rw [hf] at h
      exact absurd h (by simp)
    simp only [hf] at h
    have hkey : root.key = k := Graph_find?_key g k root hf
    by_cases hvr : (root.TaskInsID == virtualTaskRootID) = true
    · rw [if_pos hvr] at h
      simp only [] at h
      rcases hf2 : g.find? k with _ | root'
      · rw [hf2] at h
        exact absurd h (by simp)
      simp only [hf2] at h
      by_cases hgate : (!ign && !root'.CanExecuteChild) = true
      · rw [if_pos hgate] at h
        cases h
        exact ⟨fun _ => rfl, fun hb => Bool.noConfusion hb⟩
      · rw [if_neg hgate] at h
        exact dfsChildren_frame R _ (fun g k s s' g' b hw => ih g k s s' g' b hw)
          root'.children g s s' g' b h
    · rw [if_neg hvr] at h
      rcases hcall : f s g root with ⟨s₁, g₁, b₁⟩
      simp only [hcall] at h
      cases b₁ with
      | false =>
        simp only [] at h
        cases h
        refine ⟨fun hb => Bool.noConfusion hb, fun _ => ?_⟩
        exact hstop s g root _ _ (hkey ▸ hf) hcall
      | true =>
        have hg₁ : g₁ = g := hcont s g root s₁ g₁ hcall
        subst hg₁
        simp only [] at h
        rcases hf2 : g₁.find? k with _ | root'
        · rw [hf2] at h
          exact absurd h (by simp)
        simp only [hf2] at h
        by_cases hgate : (!ign && !root'.CanExecuteChild) = true
        · rw [if_pos hgate] at h
          cases h
          exact ⟨fun _ => rfl, fun hb => Bool.noConfusion hb⟩
        · rw [if_neg hgate] at h
          exact dfsChildren_frame R _ (fun g k s s' g' b hw => ih g k s s' g' b hw)
            root'.children g₁ s₁ s' g' b h
/-- The collector callback of `GetExecutableTaskIds` never changes the graph
and never aborts. -/
theorem getExecutableVisit_shape (s : List String) (g : Graph) (n : TaskNode) :
    (getExecutableVisit s g n).2.1 = g ∧ (getExecutableVisit s g n).2.2 = true := by
  simp [getExecutableVisit]

/-- Claim C9: `ComputeStatus` and `GetExecutableTaskIds` return the graph they
were given unchanged; `GetNextTaskIds` returns a graph whose every node keeps
its key, identity, children and parents, and keeps its status too unless its
identity is the record's, in which case the status may only have become the
record's status. -/
theorem claim9_theorem :
    (∀ store fuel g k r g', ComputeStatus store fuel g k = some (r, g') → g' = g) ∧
    (∀ fuel g k r g', GetExecutableTaskIds fuel g k = some (r, g') → g' = g) ∧
    (∀ fuel g k rec r g', GetNextTaskIds fuel g k rec = some (r, g') →
      g'.nodes.length = g.nodes.length ∧
      ∀ m' ∈ g'.nodes, ∃ m ∈ g.nodes, m'.key = m.key ∧ m'.TaskInsID = m.TaskInsID ∧
        m'.children = m.children ∧ m'.parents = m.parents ∧
        (m'.Status = m.Status ∨ (m.TaskInsID = rec.ID ∧ m'.Status = rec.Status))) := by
  refine ⟨?_, ?_, ?_⟩
  · intro store fuel g k r g' h
    simp only [ComputeStatus] at h
    rcases hf : g.find? k with _ | t
    · rw [hf] at h
      exact absurd h (by simp)
    simp only [hf] at h
    by_cases hfast : endTaskFastPath store g t = true
    · rw [if_pos hfast] at h
      cases h
      rfl
    · rw [if_neg hfast] at h
      simp only [computeStatusFullPath] at h
      rcases hw : dfsWalk computeStatusVisit false fuel g k (TreeStatus.Success, "")
        with _ | ⟨⟨st, src⟩, g₁, b⟩
      · rw [hw] at h
        exact absurd h (by simp)
      simp only [hw] at h
      have hface := dfsWalk_frame (fun g g' => g' = g) computeStatusVisit false
        computeStatusVisit_pure
        (fun s g n s' g' _ hc => by
          have h2 := computeStatusVisit_graph s g n
          rw [hc] at h2
          exact h2)
        fuel g k (TreeStatus.Success, "") (st, src) g₁ b hw
      have hg₁ : g₁ = g := by
        cases b with
        | true => exact hface.1 rfl
        | false => exact hface.2 rfl
      by_cases hsrc : (src != "") = true
      · rw [if_pos hsrc] at h
        cases h
        exact hg₁
      · rw [if_neg hsrc] at h
        cases h
        exact hg₁
  · intro fuel g k r g' h
    simp only [GetExecutableTaskIds, walkNode] at h
    rcases hw : dfsWalk getExecutableVisit false fuel g k [] with _ | ⟨s₁, g₁, b⟩
    · rw [hw] at h
      exact absurd h (by simp)
    simp only [hw, Option.map_some'] at h
    cases h
    have hface := dfsWalk_frame (fun g g' => g' = g) getExecutableVisit false
      (fun s g n s' g' hc => by
        have h2 := (getExecutableVisit_shape s g n).1
        rw [hc] at h2
        exact h2)
      (fun s g n s' g' _ hc => by
        have h2 := (getExecutableVisit_shape s g n).1
        rw [hc] at h2
        exact h2)
      fuel g k [] r g' b hw
    cases b with
    | true => exact hface.1 rfl
    | false => exact hface.2 rfl
  · intro fuel g k rec r g' h
    simp only [GetNextTaskIds, walkNode] at h
    rcases hw : dfsWalk (getNextVisit rec) false fuel g k ([], false) with _ | ⟨s₁, g₁, b⟩
    · rw [hw] at h
      exact absurd h (by simp)
    simp only [hw, Option.map_some'] at h
    cases h
    have hstop : ∀ s g n s' g', g.find? n.key = some n →
        getNextVisit rec s g n = (s', g', false) →
        ∃ m, g.find? m.key = some m ∧ m.TaskInsID = rec.ID ∧
          g' = g.set { m with Status := rec.Status } := by
      intro s g n s' g' hfind hc
      simp only [getNextVisit] at hc
      by_cases hm : (rec.ID == n.TaskInsID) = true
      · rw [if_pos hm] at hc
        refine ⟨n, hfind, (beq_iff_eq.mp hm).symm, ?_⟩
        by_cases h1 : (({ n with Status := rec.Status } : TaskNode).Status ==
            TaskInstanceStatus.Init) = true
        · rw [if_pos h1] at hc
          exact (congrArg (fun p => p.2.1) hc).symm
        · rw [if_neg h1] at hc
          by_cases h2 : (!({ n with Status := rec.Status } : TaskNode).CanExecuteChild) = true
          · rw [if_pos h2] at hc
            exact (congrArg (fun p => p.2.1) hc).symm
          · rw [if_neg h2] at hc
            exact (congrArg (fun p => p.2.1) hc).symm
      · rw [if_neg hm] at hc
        exact absurd (congrArg (fun p => p.2.2) hc) (by simp)
    have hface := dfsWalk_frame
      (fun g g' => ∃ m, g.find? m.key = some m ∧ m.TaskInsID = rec.ID ∧
        g' = g.set { m with Status := rec.Status })
      (getNextVisit rec) false (getNextVisit_pure rec) hstop
      fuel g k ([], false) r g' b hw
    have hcases : g' = g ∨ ∃ m, g.find? m.key = some m ∧ m.TaskInsID = rec.ID ∧
        g' = g.set { m with Status := rec.Status } := by
      cases b with
      | true => exact Or.inl (hface.1 rfl)
      | false => exact Or.inr (hface.2 rfl)
    rcases hcases with rfl | ⟨m, hmfind, hmid, rfl⟩
    · exact ⟨rfl, fun m' hm' => ⟨m', hm', rfl, rfl, rfl, rfl, Or.inl rfl⟩⟩
    · constructor
      · simp [Graph.set]
      · intro m' hm'
        simp only [Graph.set, List.mem_map] at hm'
        rcases hm' with ⟨m₀, hm₀, hrepl⟩
        by_cases hk : (m₀.key == m.key) = true
        · rw [if_pos hk] at hrepl
          subst hrepl
          have hmem : m ∈ g.nodes := List.mem_of_find?_eq_some hmfind
          exact ⟨m, hmem, rfl, rfl, rfl, rfl, Or.inr ⟨hmid, rfl⟩⟩
        · rw [if_neg hk] at hrepl
          subst hrepl
          exact ⟨m₀, hm₀, rfl, rfl, rfl, rfl, Or.inl rfl⟩
/-- The diamond graph with B Running, C Success, after the advancer has
overwritten B to Success. -/
def gDiaBS : Graph :=
  (gDiamondP TaskInstanceStatus.Running TaskInstanceStatus.Success).set
    ⟨"B", "B", TaskInstanceStatus.Success, ["D"], ["A"]⟩

/-- Claim C9 witness: the frame theorem applied to concrete runs of all three
operations (the third in its mutating case). -/
theorem claim9_witness :
    gFB = gFB ∧ gFB = gFB ∧
    (gDiaBS.nodes.length =
      (gDiamondP TaskInstanceStatus.Running TaskInstanceStatus.Success).nodes.length ∧
     ∀ m' ∈ gDiaBS.nodes,
       ∃ m ∈ (gDiamondP TaskInstanceStatus.Running TaskInstanceStatus.Success).nodes,
         m'.key = m.key ∧ m'.TaskInsID = m.TaskInsID ∧ m'.children = m.children ∧
         m'.parents = m.parents ∧
         (m'.Status = m.Status ∨
           (m.TaskInsID = "B" ∧ m'.Status = TaskInstanceStatus.Success))) :=
  ⟨claim9_theorem.1 storeFail 3 gFB virtualTaskRootID (TreeStatus.Blocked, "B") gFB rfl,
   claim9_theorem.2.1 5 gFB virtualTaskRootID [] gFB rfl,
   claim9_theorem.2.2 10 (gDiamondP TaskInstanceStatus.Running TaskInstanceStatus.Success)
     virtualTaskRootID ⟨"B", "dag", "B", TaskInstanceStatus.Success⟩ (["D"], true) gDiaBS rfl⟩

/-! ## Claim C3: graph construction

The effect of the linking phase on one stored node is captured by the
functions below: processing the task list appends, to the node stored under
`k`, the parents contributed by the task whose graph identity is `k` (the
virtual root for a zero-dependency task, its dependency list otherwise) and
one child per dependency reference to `k`. -/

/-- Parent keys the linking of `tasks` appends to the node stored under `k`. -/
def parentsAdded (tasks : List TaskInfoGetter) (k : String) : List String :=
  tasks.flatMap (fun t =>
    if t.GraphID = k then (if t.Depend.isEmpty then [virtualTaskRootID] else t.Depend)
    else [])

/-- Child keys the linking of `tasks` appends to the node stored under `k`. -/
def childrenAdded (tasks : List TaskInfoGetter) (k : String) : List String :=
  tasks.flatMap (fun t => (t.Depend.filter (fun d => d == k)).map (fun _ => t.GraphID))

/-- The cumulative effect of the linking phase on one stored node. -/
def linkNode (tasks : List TaskInfoGetter) (n : TaskNode) : TaskNode :=
  { n with parents := n.parents ++ parentsAdded tasks n.key,
           children := n.children ++ childrenAdded tasks n.key }

/-- Parent keys `linkDeps gid _ deps` appends to the node stored under `k`. -/
def depParentsAdded (gid : String) (deps : List String) (k : String) : List String :=
  if k = gid then deps else []

/-- Child keys `linkDeps gid _ deps` appends to the node stored under `k`. -/
def depChildrenAdded (gid : String) (deps : List String) (k : String) : List String :=
  (deps.filter (fun d => d == k)).map (fun _ => gid)

/-- The effect of `linkDeps gid _ deps` on one stored node. -/
def depLinkNode (gid : String) (deps : List String) (n : TaskNode) : TaskNode :=
  { n with parents := n.parents ++ depParentsAdded gid deps n.key,
           children := n.children ++ depChildrenAdded gid deps n.key }

theorem depLinkNode_nil (gid : String) (n : TaskNode) : depLinkNode gid [] n = n := by
  cases n
  simp [depLinkNode, depParentsAdded, depChildrenAdded]

theorem storeAppendChild_eq_map (s : List TaskNode) (k c : String) :
    storeAppendChild s k c =
      s.map (fun n => if n.key == k then { n with children := n.children ++ [c] } else n) :=
  rfl

theorem depLinkNode_step (gid d : String) (rest : List String) (n : TaskNode) :
    depLinkNode gid rest
      ((fun n => if n.key == gid then { n with parents := n.parents ++ [d] } else n)
        ((fun n => if n.key == d then { n with children := n.children ++ [gid] } else n) n)) =
    depLinkNode gid (d :: rest) n := by
  by_cases h1 : n.key = d
  · by_cases h2 : n.key = gid
    · subst h1
      subst h2
      simp [depLinkNode, depParentsAdded, depChildrenAdded, List.filter_cons]
    · subst h1
      have h2b : (n.key == gid) = false := beq_eq_false_iff_ne.mpr h2
      simp [depLinkNode, depParentsAdded, depChildrenAdded, List.filter_cons, h2, h2b]
  · by_cases h2 : n.key = gid
    · subst h2
      have h1b : (n.key == d) = false := beq_eq_false_iff_ne.mpr h1
      have h1c : (d == n.key) = false := beq_eq_false_iff_ne.mpr (fun hc => h1 hc.symm)
      simp [depLinkNode, depParentsAdded, depChildrenAdded, List.filter_cons, h1b, h1c]
    · have h1b : (n.key == d) = false := beq_eq_false_iff_ne.mpr h1
      have h1c : (d == n.key) = false := beq_eq_false_iff_ne.mpr (fun hc => h1 hc.symm)
      have h2b : (n.key == gid) = false := beq_eq_false_iff_ne.mpr h2
      simp [depLinkNode, depParentsAdded, depChildrenAdded, List.filter_cons, h1b, h1c, h2b, h2]

/-- `linkDeps` succeeds exactly into the pointwise-linked store. -/
theorem linkDeps_ok_map :
    ∀ (deps : List String) (gid : String) (s s' : List TaskNode),
      linkDeps gid s deps = Except.ok s' → s' = s.map (depLinkNode gid deps) := by
  intro deps
  induction deps with
  | nil =>
    intro gid s s' h
    simp only [linkDeps] at h
    cases h
    have h2 : s.map (depLinkNode gid []) = s.map id :=
      List.map_congr_left (fun n _ => depLinkNode_nil gid n)
    rw [h2, List.map_id]
  | cons d rest ih =>
    intro gid s s' h
    simp only [linkDeps] at h
    rcases hf : s.find? (fun n => n.key == d) with _ | c
    · rw [hf] at h
      exact absurd h (by simp)
    simp only [hf] at h
    rw [ih gid _ s' h]
    simp only [storeAppendParent, storeAppendChild, List.map_map]
    apply List.map_congr_left
    intro n _
    simpa using depLinkNode_step gid d rest n
theorem linkNode_nil (n : TaskNode) : linkNode [] n = n := by
  cases n
  simp [linkNode, parentsAdded, childrenAdded]

theorem linkNode_key (tasks : List TaskInfoGetter) (n : TaskNode) :
    (linkNode tasks n).key = n.key := rfl

theorem depLinkNode_key (gid : String) (deps : List String) (n : TaskNode) :
    (depLinkNode gid deps n).key = n.key := rfl

theorem linkNode_step_empty (t : TaskInfoGetter) (rest : List TaskInfoGetter) (n : TaskNode)
    (hdep : t.Depend.isEmpty = true) :
    linkNode rest
      ((fun n => if n.key == t.GraphID
        then { n with parents := n.parents ++ [virtualTaskRootID] } else n) n) =
    linkNode (t :: rest) n := by
  have hd : t.Depend = [] := by simpa using hdep
  by_cases hk : n.key = t.GraphID
  · have hkb : (n.key == t.GraphID) = true := beq_iff_eq.mpr hk
    have hk' : t.GraphID = n.key := hk.symm
    simp [linkNode, parentsAdded, childrenAdded, List.flatMap_cons, hd, hkb, hk']
  · have hkb : (n.key == t.GraphID) = false := beq_eq_false_iff_ne.mpr hk
    have hk' : ¬(t.GraphID = n.key) := fun hc => hk hc.symm
    simp [linkNode, parentsAdded, childrenAdded, List.flatMap_cons, hd, hkb, hk']

theorem linkNode_step_deps (t : TaskInfoGetter) (rest : List TaskInfoGetter) (n : TaskNode)
    (hdep : t.Depend.isEmpty = false) :
    linkNode rest (depLinkNode t.GraphID t.Depend n) = linkNode (t :: rest) n := by
  have hd : ¬(t.Depend = []) := by simpa using hdep
  by_cases hk : t.GraphID = n.key
  · simp [linkNode, depLinkNode, parentsAdded, childrenAdded, depParentsAdded,
      depChildrenAdded, List.flatMap_cons, hdep, hk, hd]
  · simp [linkNode, depLinkNode, parentsAdded, childrenAdded, depParentsAdded,
      depChildrenAdded, List.flatMap_cons, hdep, hk, hd]
    exact fun hc => hk hc.symm

/-- Root children accumulated by the linking phase: the graph identities of
the zero-dependency descriptors, in input order. -/
def rcAdded (tasks : List TaskInfoGetter) : List String :=
  (tasks.filter (fun t => t.Depend.isEmpty)).map (fun t => t.GraphID)

/-- `linkTasksGo` succeeds exactly into the pointwise-linked store, appending
the zero-dependency identities to the root-children accumulator. -/
theorem linkTasksGo_ok_map :
    ∀ (tasks : List TaskInfoGetter) (s : List TaskNode) (rc : List String)
      (s' : List TaskNode) (rc' : List String),
      linkTasksGo s rc tasks = Except.ok (s', rc') →
      s' = s.map (linkNode tasks) ∧ rc' = rc ++ rcAdded tasks := by
  intro tasks
  induction tasks with
  | nil =>
    intro s rc s' rc' h
    simp only [linkTasksGo] at h
    cases h
    constructor
    · have h2 : s.map (linkNode []) = s.map id :=
        List.map_congr_left (fun n _ => linkNode_nil n)
      rw [h2, List.map_id]
    · simp [rcAdded]
  | cons t rest ih =>
    intro s rc s' rc' h
    simp only [linkTasksGo] at h
    by_cases hdep : t.Depend.isEmpty = true
    · rw [if_pos hdep] at h
      obtain ⟨h1, h2⟩ := ih _ _ _ _ h
      constructor
      · rw [h1]
        simp only [storeAppendParent, List.map_map]
        apply List.map_congr_left
        intro n _
        simpa using linkNode_step_empty t rest n hdep
      · rw [h2]
        simp [rcAdded, List.filter_cons, hdep]
    · have hdep' : t.Depend.isEmpty = false := Bool.eq_false_iff.mpr hdep
      rw [if_neg hdep] at h
      rcases hld : linkDeps t.GraphID s t.Depend with e | s₁
      · rw [hld] at h
        exact absurd h (by simp)
      rw [hld] at h
      simp only [] at h
      obtain ⟨h1, h2⟩ := ih _ _ _ _ h
      constructor
      · rw [h1, linkDeps_ok_map t.Depend t.GraphID s s₁ hld]
        rw [List.map_map]
        apply List.map_congr_left
        intro n _
        simpa using linkNode_step_deps t rest n hdep'
      · rw [h2]
        simp [rcAdded, List.filter_cons, hdep']
theorem map_key_storeAppendParent (s : List TaskNode) (k p : String) :
    (storeAppendParent s k p).map (fun n => n.key) = s.map (fun n => n.key) := by
  simp only [storeAppendParent, List.map_map]
  apply List.map_congr_left
  intro n _
  by_cases h : n.key = k <;> simp [h]

theorem map_key_applyLink (s : List TaskNode) (d gid : String) :
    ((storeAppendParent (storeAppendChild s d gid) gid d).map (fun n => n.key)) =
      s.map (fun n => n.key) := by
  rw [map_key_storeAppendParent]
  simp only [storeAppendChild, List.map_map]
  apply List.map_congr_left
  intro n _
  by_cases h : n.key = d <;> simp [h]

theorem linkDeps_ok_iff :
    ∀ (deps : List String) (gid : String) (s : List TaskNode),
      (linkDeps gid s deps).isOk = true ↔ ∀ d ∈ deps, d ∈ s.map (fun n => n.key) := by
  intro deps
  induction deps with
  | nil => intro gid s; simp [linkDeps, Except.isOk, Except.toBool]
  | cons d rest ih =>
    intro gid s
    simp only [linkDeps]
    rcases hf : s.find? (fun n => n.key == d) with _ | c
    · have hd : d ∉ s.map (fun n => n.key) := by
        intro hmem
        rcases List.mem_map.mp hmem with ⟨n, hn, hkey⟩
        have := List.find?_eq_none.mp hf n hn
        simp [hkey] at this
      simp only [hf]
      constructor
      · intro h
        exact absurd h (by simp [Except.isOk, Except.toBool])
      · intro h
        exact absurd (h d (List.mem_cons_self d rest)) hd
    · have hd : d ∈ s.map (fun n => n.key) := by
        refine List.mem_map.mpr ⟨c, List.mem_of_find?_eq_some hf, ?_⟩
        simpa using List.find?_some hf
      simp only [hf]
      rw [ih gid _]
      rw [map_key_applyLink s d gid]
      constructor
      · intro h d' hd'
        rcases List.mem_cons.mp hd' with rfl | hd''
        · exact hd
        · exact h d' hd''
      · intro h d' hd'
        exact h d' (List.mem_cons_of_mem d hd')

theorem linkDeps_error_shape :
    ∀ (deps : List String) (gid : String) (s : List TaskNode) (e : BuildErr),
      linkDeps gid s deps = Except.error e → ∃ d, e = BuildErr.missingDepend gid d := by
  intro deps
  induction deps with
  | nil => intro gid s e h; exact absurd h (by simp [linkDeps])
  | cons d rest ih =>
    intro gid s e h
    simp only [linkDeps] at h
    rcases hf : s.find? (fun n => n.key == d) with _ | c
    · rw [hf] at h
      cases h
      exact ⟨d, rfl⟩
    · rw [hf] at h
      exact ih gid _ e h

theorem map_key_map_linkish {f : TaskNode → TaskNode} (hf : ∀ n, (f n).key = n.key)
    (s : List TaskNode) : (s.map f).map (fun n => n.key) = s.map (fun n => n.key) := by
  rw [List.map_map]
  apply List.map_congr_left
  intro n _
  simp [hf n]

theorem linkTasksGo_ok_iff :
    ∀ (tasks : List TaskInfoGetter) (s : List TaskNode) (rc : List String),
      (linkTasksGo s rc tasks).isOk = true ↔
        ∀ t ∈ tasks, ∀ d ∈ t.Depend, d ∈ s.map (fun n => n.key) := by
  intro tasks
  induction tasks with
  | nil => intro s rc; simp [linkTasksGo, Except.isOk, Except.toBool]
  | cons t rest ih =>
    intro s rc
    simp only [linkTasksGo]
    by_cases hdep : t.Depend.isEmpty = true
    · rw [if_pos hdep]
      have hd : t.Depend = [] := by simpa using hdep
      rw [ih _ _]
      rw [map_key_storeAppendParent]
      constructor
      · intro h t' ht'
        rcases List.mem_cons.mp ht' with rfl | ht''
        · simp [hd]
        · exact h t' ht''
      · intro h t' ht'
        exact h t' (List.mem_cons_of_mem t ht')
    · rw [if_neg hdep]
      rcases hld : linkDeps t.GraphID s t.Depend with e | s₁
      · have hcond : ¬∀ d ∈ t.Depend, d ∈ s.map (fun n => n.key) := by
          intro hc
          have := (linkDeps_ok_iff t.Depend t.GraphID s).mpr hc
          rw [hld] at this
          simp [Except.isOk, Except.toBool] at this
        simp only [hld]
        constructor
        · intro h
          exact absurd h (by simp [Except.isOk, Except.toBool])
        · intro h
          exact absurd (h t (List.mem_cons_self t rest)) hcond
      · have hcond : ∀ d ∈ t.Depend, d ∈ s.map (fun n => n.key) := by
          have := (linkDeps_ok_iff t.Depend t.GraphID s).mp (by simp [hld, Except.isOk, Except.toBool])
          exact this
        simp only [hld]
        rw [ih _ _]
        rw [linkDeps_ok_map t.Depend t.GraphID s s₁ hld,
          map_key_map_linkish (depLinkNode_key t.GraphID t.Depend)]
        constructor
        · intro h t' ht'
          rcases List.mem_cons.mp ht' with rfl | ht''
          · exact hcond
          · exact h t' ht''
        · intro h t' ht'
          exact h t' (List.mem_cons_of_mem t ht')

theorem linkTasksGo_error_shape :
    ∀ (tasks : List TaskInfoGetter) (s : List TaskNode) (rc : List String) (e : BuildErr),
      linkTasksGo s rc tasks = Except.error e → ∃ a b, e = BuildErr.missingDepend a b := by
  intro tasks
  induction tasks with
  | nil => intro s rc e h; exact absurd h (by simp [linkTasksGo])
  | cons t rest ih =>
    intro s rc e h
    simp only [linkTasksGo] at h
    by_cases hdep : t.Depend.isEmpty = true
    · rw [if_pos hdep] at h
      exact ih _ _ e h
    · rw [if_neg hdep] at h
      rcases hld : linkDeps t.GraphID s t.Depend with e₁ | s₁
      · rw [hld] at h
        cases h
        rcases linkDeps_error_shape t.Depend t.GraphID s e hld with ⟨d, rfl⟩
        exact ⟨t.GraphID, d, rfl⟩
      · rw [hld] at h
        exact ih _ _ e h
theorem except_isOk_false {ε α : Type} (x : Except ε α) (h : x.isOk = false) :
    ∃ e, x = Except.error e := by
  cases x with
  | error e => exact ⟨e, rfl⟩
  | ok a => simp [Except.isOk, Except.toBool] at h

theorem buildGraphNodeMapGo_ok_iff :
    ∀ (tasks : List TaskInfoGetter) (acc : List TaskNode),
      (buildGraphNodeMapGo acc tasks).isOk = true ↔
        ((tasks.map (fun t => t.GraphID)).Nodup ∧
          ∀ t ∈ tasks, t.GraphID ∉ acc.map (fun n => n.key)) := by
  intro tasks
  induction tasks with
  | nil =>
    intro acc
    simp [buildGraphNodeMapGo, Except.isOk, Except.toBool]
  | cons t rest ih =>
    intro acc
    simp only [buildGraphNodeMapGo]
    rcases hf : acc.find? (fun n => n.key == t.GraphID) with _ | c
    · have hnotin : t.GraphID ∉ acc.map (fun n => n.key) := by
        intro hmem
        rcases List.mem_map.mp hmem with ⟨n, hn, hkey⟩
        have := List.find?_eq_none.mp hf n hn
        simp [hkey] at this
      rw [if_neg (by simp [hf])]
      rw [ih _]
      have hkeys : (acc ++ [NewTaskNodeFromGetter t]).map (fun n => n.key) =
          acc.map (fun n => n.key) ++ [t.GraphID] := by
        simp [NewTaskNodeFromGetter]
      rw [hkeys]
      constructor
      · rintro ⟨hnd, hmem⟩
        refine ⟨List.nodup_cons.mpr ⟨?_, hnd⟩, ?_⟩
        · intro hc
          rcases List.mem_map.mp hc with ⟨t', ht', hgid⟩
          have := hmem t' ht'
          simp [hgid] at this
        · intro t' ht'
          rcases List.mem_cons.mp ht' with rfl | ht''
          · exact hnotin
          · intro hc
            exact hmem t' ht'' (List.mem_append.mpr (Or.inl hc))
      · rintro ⟨hnd, hmem⟩
        obtain ⟨hhead, htail⟩ := List.nodup_cons.mp hnd
        refine ⟨htail, ?_⟩
        intro t' ht'
        simp only [List.mem_append, List.mem_singleton]
        rintro (hc | hc)
        · exact (hmem t' (List.mem_cons_of_mem t ht')) hc
        · refine hhead ?_
          show t.GraphID ∈ List.map (fun t => t.GraphID) rest
          rw [← hc]
          exact List.mem_map_of_mem (fun t => t.GraphID) ht'
    · have hin : t.GraphID ∈ acc.map (fun n => n.key) := by
        refine List.mem_map.mpr ⟨c, List.mem_of_find?_eq_some hf, ?_⟩
        simpa using List.find?_some hf
      rw [if_pos (by simp [hf])]
      constructor
      · intro h
        exact absurd h (by simp [Except.isOk, Except.toBool])
      · rintro ⟨-, hmem⟩
        exact absurd hin (hmem t (List.mem_cons_self t rest))

theorem buildGraphNodeMapGo_ok_val :
    ∀ (tasks : List TaskInfoGetter) (acc : List TaskNode) (s : List TaskNode),
      buildGraphNodeMapGo acc tasks = Except.ok s →
      s = acc ++ tasks.map NewTaskNodeFromGetter := by
  intro tasks
  induction tasks with
  | nil =>
    intro acc s h
    simp only [buildGraphNodeMapGo] at h
    cases h
    simp
  | cons t rest ih =>
    intro acc s h
    simp only [buildGraphNodeMapGo] at h
    by_cases hf : (acc.find? (fun n => n.key == t.GraphID)).isSome = true
    · rw [if_pos hf] at h
      exact absurd h (by simp)
    · rw [if_neg hf] at h
      rw [ih _ s h]
      simp

theorem buildGraphNodeMapGo_error_shape :
    ∀ (tasks : List TaskInfoGetter) (acc : List TaskNode) (e : BuildErr),
      buildGraphNodeMapGo acc tasks = Except.error e →
      ∃ id, e = BuildErr.repeatedTaskId id := by
  intro tasks
  induction tasks with
  | nil => intro acc e h; exact absurd h (by simp [buildGraphNodeMapGo])
  | cons t rest ih =>
    intro acc e h
    simp only [buildGraphNodeMapGo] at h
    by_cases hf : (acc.find? (fun n => n.key == t.GraphID)).isSome = true
    · rw [if_pos hf] at h
      cases h
      exact ⟨t.GraphID, rfl⟩
    · rw [if_neg hf] at h
      exact ih _ e h

theorem parentsAdded_not_mem (tasks : List TaskInfoGetter) (k : String)
    (h : k ∉ tasks.map (fun t => t.GraphID)) : parentsAdded tasks k = [] := by
  induction tasks with
  | nil => rfl
  | cons t rest ih =>
    simp only [List.map_cons, List.mem_cons] at h
    push_neg at h
    simp only [parentsAdded, List.flatMap_cons]
    rw [if_neg (fun hc => h.1 hc.symm)]
    simpa [parentsAdded] using ih h.2

theorem parentsAdded_zero_dep :
    ∀ (tasks : List TaskInfoGetter) (k : String) (t₀ : TaskInfoGetter),
      (tasks.map (fun t => t.GraphID)).Nodup → t₀ ∈ tasks → t₀.GraphID = k →
      t₀.Depend = [] → parentsAdded tasks k = [virtualTaskRootID] := by
  intro tasks
  induction tasks with
  | nil => intro k t₀ _ h; exact absurd h (List.not_mem_nil t₀)
  | cons t rest ih =>
    intro k t₀ hnd hmem hgid hdep
    obtain ⟨hhead, htail⟩ := List.nodup_cons.mp hnd
    simp only [parentsAdded, List.flatMap_cons]
    rcases List.mem_cons.mp hmem with rfl | hmem'
    · rw [if_pos hgid, if_pos (by simp [hdep])]
      have : parentsAdded rest k = [] := by
        apply parentsAdded_not_mem
        rw [← hgid]
        exact hhead
      simpa [parentsAdded] using this
    · have hne : t.GraphID ≠ k := by
        intro hc
        refine hhead ?_
        show t.GraphID ∈ List.map (fun t => t.GraphID) rest
        rw [hc, ← hgid]
        exact List.mem_map_of_mem (fun t => t.GraphID) hmem'
      rw [if_neg hne]
      simpa [parentsAdded] using ih k t₀ htail hmem' hgid hdep
theorem except_isOk_true {ε α : Type} (x : Except ε α) (h : x.isOk = true) :
    ∃ a, x = Except.ok a := by
  cases x with
  | error e => simp [Except.isOk, Except.toBool] at h
  | ok a => exact ⟨a, rfl⟩

theorem keys_newNodes (tasks : List TaskInfoGetter) :
    (tasks.map NewTaskNodeFromGetter).map (fun n => n.key) =
      tasks.map (fun t => t.GraphID) := by
  rw [List.map_map]
  rfl

theorem rcAdded_eq_nil_iff (tasks : List TaskInfoGetter) :
    rcAdded tasks = [] ↔ ¬∃ t ∈ tasks, t.Depend = [] := by
  simp only [rcAdded, List.map_eq_nil_iff, List.filter_eq_nil_iff]
  constructor
  · rintro h ⟨t, ht, hd⟩
    exact h t ht (by simp [hd])
  · intro h t ht hd
    exact h ⟨t, ht, by simpa using hd⟩

/-- Claim C3: `BuildRootNode` succeeds exactly when no graph identity repeats,
every declared dependency resolves, and some descriptor has no dependencies;
on success (with identities distinct from the reserved root sentinel) every
root child's only parent is the synthetic root; each of the three violations
yields its own error constructor, and the three are pairwise distinct. -/
theorem claim3_theorem (tasks : List TaskInfoGetter) :
    ((BuildRootNode tasks).isOk = true ↔
      ((tasks.map (fun t => t.GraphID)).Nodup ∧
       (∀ t ∈ tasks, ∀ d ∈ t.Depend, d ∈ tasks.map (fun t => t.GraphID)) ∧
       (∃ t ∈ tasks, t.Depend = []))) ∧
    (∀ g, BuildRootNode tasks = Except.ok g →
      (∀ t ∈ tasks, t.GraphID ≠ virtualTaskRootID) →
      ∃ root, g.find? virtualTaskRootID = some root ∧
        root.TaskInsID = virtualTaskRootID ∧ root.parents = [] ∧
        ∀ ck ∈ root.children, ∃ c, g.find? ck = some c ∧
          c.parents = [virtualTaskRootID]) ∧
    (¬(tasks.map (fun t => t.GraphID)).Nodup →
      ∃ id, BuildRootNode tasks = Except.error (BuildErr.repeatedTaskId id)) ∧
    ((tasks.map (fun t => t.GraphID)).Nodup →
      ¬(∀ t ∈ tasks, ∀ d ∈ t.Depend, d ∈ tasks.map (fun t => t.GraphID)) →
      ∃ a b, BuildRootNode tasks = Except.error (BuildErr.missingDepend a b)) ∧
    ((tasks.map (fun t => t.GraphID)).Nodup →
      (∀ t ∈ tasks, ∀ d ∈ t.Depend, d ∈ tasks.map (fun t => t.GraphID)) →
      ¬(∃ t ∈ tasks, t.Depend = []) →
      BuildRootNode tasks = Except.error BuildErr.noStartNodes) ∧
    (∀ id a b, BuildErr.repeatedTaskId id ≠ BuildErr.missingDepend a b ∧
      BuildErr.repeatedTaskId id ≠ BuildErr.noStartNodes ∧
      BuildErr.missingDepend a b ≠ BuildErr.noStartNodes) := by
  have hbgiff := buildGraphNodeMapGo_ok_iff tasks []
  simp only [List.map_nil, List.not_mem_nil, not_false_iff, implies_true, and_true] at hbgiff
  refine ⟨?_, ?_, ?_, ?_, ?_, ?_⟩
  · simp only [BuildRootNode]
    rcases hbg : buildGraphNodeMap tasks with e | s
    · have hnodup : ¬(tasks.map (fun t => t.GraphID)).Nodup := by
        intro hc
        have := hbgiff.mpr hc
        rw [show buildGraphNodeMapGo [] tasks = buildGraphNodeMap tasks from rfl, hbg] at this
        simp [Except.isOk, Except.toBool] at this
      simp [Except.isOk, Except.toBool, hnodup]
    · have hnodup : (tasks.map (fun t => t.GraphID)).Nodup := by
        apply hbgiff.mp
        rw [show buildGraphNodeMapGo [] tasks = buildGraphNodeMap tasks from rfl, hbg]
        simp [Except.isOk, Except.toBool]
      have hskeys : s.map (fun n => n.key) = tasks.map (fun t => t.GraphID) := by
        have := buildGraphNodeMapGo_ok_val tasks [] s hbg
        rw [this]
        simpa using keys_newNodes tasks
      have hliff := linkTasksGo_ok_iff tasks s []
      rw [hskeys] at hliff
      rcases hl : linkTasksGo s [] tasks with e | p
      · have hdeps : ¬∀ t ∈ tasks, ∀ d ∈ t.Depend, d ∈ tasks.map (fun t => t.GraphID) := by
          intro hc
          have := hliff.mpr hc
          rw [hl] at this
          simp [Except.isOk, Except.toBool] at this
        apply iff_of_false
        · simp [hl, Except.isOk, Except.toBool]
        · rintro ⟨-, hd, -⟩
          exact hdeps hd
      · rcases p with ⟨s', rc'⟩
        have hdeps : ∀ t ∈ tasks, ∀ d ∈ t.Depend, d ∈ tasks.map (fun t => t.GraphID) := by
          apply hliff.mp
          rw [hl]
          simp [Except.isOk, Except.toBool]
        obtain ⟨-, hrc⟩ := linkTasksGo_ok_map tasks s [] s' rc' hl
        simp only [List.nil_append] at hrc
        by_cases hempty : rc'.isEmpty = true
        · have hnostart : ¬∃ t ∈ tasks, t.Depend = [] := by
            rw [← rcAdded_eq_nil_iff tasks, ← hrc]
            exact List.isEmpty_iff.mp hempty
          apply iff_of_false
          · simp [hl, Except.isOk, Except.toBool, hempty]
          · rintro ⟨-, -, hst⟩
            exact hnostart hst
        · have hstart : ∃ t ∈ tasks, t.Depend = [] := by
            by_contra hc
            rw [← rcAdded_eq_nil_iff tasks, ← hrc] at hc
            exact hempty (List.isEmpty_iff.mpr hc)
          apply iff_of_true
          · simp [hl, Except.isOk, Except.toBool, hempty]
          · exact ⟨hnodup, hdeps, hstart⟩
  · intro g hg hres
    simp only [BuildRootNode] at hg
    rcases hbg : buildGraphNodeMap tasks with e | s
    · rw [hbg] at hg
      exact absurd hg (by simp)
    simp only [hbg] at hg
    rcases hl : linkTasksGo s [] tasks with e | ⟨s', rc'⟩
    · simp only [hl] at hg
      exact absurd hg (by simp)
    simp only [hl] at hg
    by_cases hempty : rc'.isEmpty = true
    · rw [if_pos hempty] at hg
      exact absurd hg (by simp)
    rw [if_neg hempty] at hg
    cases hg
    have hnodup : (tasks.map (fun t => t.GraphID)).Nodup := by
      apply hbgiff.mp
      rw [show buildGraphNodeMapGo [] tasks = buildGraphNodeMap tasks from rfl, hbg]
      simp [Except.isOk, Except.toBool]
    have hsval := buildGraphNodeMapGo_ok_val tasks [] s hbg
    simp only [List.nil_append] at hsval
    obtain ⟨hs', hrc⟩ := linkTasksGo_ok_map tasks s [] s' rc' hl
    simp only [List.nil_append] at hrc
    refine ⟨_, rfl, rfl, rfl, ?_⟩
    intro ck hck
    rw [hrc] at hck
    rcases List.mem_map.mp hck with ⟨t₀, ht₀f, hgid⟩
    obtain ⟨ht₀, ht₀dep⟩ := List.mem_filter.mp ht₀f
    have ht₀nil : t₀.Depend = [] := by simpa using ht₀dep
    have hckroot : (virtualTaskRootID == ck) = false := by
      refine beq_eq_false_iff_ne.mpr ?_
      intro hc
      exact hres t₀ ht₀ (by rw [hgid, ← hc])
    have hfind : Graph.find? ⟨rootNode rc' :: s'⟩ ck =
        s'.find? (fun n => n.key == ck) := by
      simp [Graph.find?, List.find?, rootNode, hckroot]
    have hpred : (fun t => (linkNode tasks (NewTaskNodeFromGetter t)).key == ck) =
        (fun t => t.GraphID == ck) := rfl
    have hfind2 : s'.find? (fun n => n.key == ck) =
        (tasks.find? (fun t => t.GraphID == ck)).map
          (fun t => linkNode tasks (NewTaskNodeFromGetter t)) := by
      rw [hs', hsval, List.map_map, List.find?_map]
      rfl
    have hsome : (tasks.find? (fun t => t.GraphID == ck)).isSome = true :=
      List.find?_isSome.mpr ⟨t₀, ht₀, by simp [hgid]⟩
    rcases hfs : tasks.find? (fun t => t.GraphID == ck) with _ | t₁
    · rw [hfs] at hsome
      simp at hsome
    have ht₁ : t₁.GraphID = ck := by simpa using List.find?_some hfs
    refine ⟨linkNode tasks (NewTaskNodeFromGetter t₁), ?_, ?_⟩
    · rw [hfind, hfind2, hfs]
      rfl
    · show ([] ++ parentsAdded tasks t₁.GraphID : List String) = [virtualTaskRootID]
      rw [List.nil_append, ht₁]
      exact parentsAdded_zero_dep tasks ck t₀ hnodup ht₀ hgid ht₀nil
  · intro hnodup
    have : (buildGraphNodeMapGo [] tasks).isOk = false := by
      rcases h : (buildGraphNodeMapGo [] tasks).isOk with _ | _
      · rfl
      · exact absurd (hbgiff.mp h) hnodup
    obtain ⟨e, he⟩ := except_isOk_false _ this
    obtain ⟨id, rfl⟩ := buildGraphNodeMapGo_error_shape tasks [] e he
    refine ⟨id, ?_⟩
    simp only [BuildRootNode]
    rw [show buildGraphNodeMap tasks = buildGraphNodeMapGo [] tasks from rfl, he]
  · intro hnodup hdeps
    obtain ⟨s, hs⟩ := except_isOk_true _ (hbgiff.mpr hnodup)
    have hskeys : s.map (fun n => n.key) = tasks.map (fun t => t.GraphID) := by
      rw [buildGraphNodeMapGo_ok_val tasks [] s hs]
      simpa using keys_newNodes tasks
    have hliff := linkTasksGo_ok_iff tasks s []
    rw [hskeys] at hliff
    have : (linkTasksGo s [] tasks).isOk = false := by
      rcases h : (linkTasksGo s [] tasks).isOk with _ | _
      · rfl
      · exact absurd (hliff.mp h) hdeps
    obtain ⟨e, he⟩ := except_isOk_false _ this
    obtain ⟨a, b, rfl⟩ := linkTasksGo_error_shape tasks s [] e he
    refine ⟨a, b, ?_⟩
    simp only [BuildRootNode]
    simp only [show buildGraphNodeMap tasks = buildGraphNodeMapGo [] tasks from rfl, hs, he]
  · intro hnodup hdeps hstart
    obtain ⟨s, hs⟩ := except_isOk_true _ (hbgiff.mpr hnodup)
    have hskeys : s.map (fun n => n.key) = tasks.map (fun t => t.GraphID) := by
      rw [buildGraphNodeMapGo_ok_val tasks [] s hs]
      simpa using keys_newNodes tasks
    have hliff := linkTasksGo_ok_iff tasks s []
    rw [hskeys] at hliff
    obtain ⟨⟨s', rc'⟩, hl⟩ := except_isOk_true _ (hliff.mpr hdeps)
    obtain ⟨-, hrc⟩ := linkTasksGo_ok_map tasks s [] s' rc' hl
    simp only [List.nil_append] at hrc
    have hempty : rc'.isEmpty = true := by
      apply List.isEmpty_iff.mpr
      rw [hrc]
      exact (rcAdded_eq_nil_iff tasks).mpr hstart
    simp only [BuildRootNode]
    simp only [show buildGraphNodeMap tasks = buildGraphNodeMapGo [] tasks from rfl, hs, hl,
      hempty, if_pos]
  · intro id a b
    refine ⟨?_, ?_, ?_⟩ <;> intro h <;> cases h
/-- Fixture: a repeated graph identity. -/
def dupTasks : List TaskInfoGetter :=
  [mkTaskInfo "A" [] TaskInstanceStatus.Init, mkTaskInfo "A" [] TaskInstanceStatus.Init]

/-- Fixture: a dependency on an identity absent from the collection. -/
def missTasks : List TaskInfoGetter :=
  [mkTaskInfo "A" ["X"] TaskInstanceStatus.Init, mkTaskInfo "B" [] TaskInstanceStatus.Init]

/-- Fixture: every descriptor declares a dependency, so no entry point. -/
def allDepTasks : List TaskInfoGetter :=
  [mkTaskInfo "A" ["B"] TaskInstanceStatus.Init, mkTaskInfo "B" ["A"] TaskInstanceStatus.Init]

/-- Claim C3 witness: the construction theorem applied to a buildable
collection, a duplicate identity, a missing dependency and a collection with
no start node. -/
theorem claim3_witness :
    (BuildRootNode diamondTasks).isOk = true ∧
    (∃ root, gDiamond.find? virtualTaskRootID = some root ∧
      root.TaskInsID = virtualTaskRootID ∧ root.parents = [] ∧
      ∀ ck ∈ root.children, ∃ c, gDiamond.find? ck = some c ∧
        c.parents = [virtualTaskRootID]) ∧
    (∃ id, BuildRootNode dupTasks = Except.error (BuildErr.repeatedTaskId id)) ∧
    (∃ a b, BuildRootNode missTasks = Except.error (BuildErr.missingDepend a b)) ∧
    BuildRootNode allDepTasks = Except.error BuildErr.noStartNodes :=
  ⟨(claim3_theorem diamondTasks).1.mpr ⟨by decide, by decide, by decide⟩,
   (claim3_theorem diamondTasks).2.1 gDiamond rfl (by decide),
   (claim3_theorem dupTasks).2.2.1 (by decide),
   (claim3_theorem missTasks).2.2.2.1 (by decide) (by decide),
   (claim3_theorem allDepTasks).2.2.2.2.1 (by decide) (by decide) (by decide)⟩


/-! ## Claim C6: cycle detection

Specification-side theory.  A key is completable when it can be marked in the
parents-first order the wave propagation follows; the iteration below builds
the least such set.  Cycles are phrased through the transitive closure of the
parent relation. -/

/-- One round of parents-first marking: add every node all of whose parents
are marked. -/
def compStep (g : Graph) (vs : List String) : List String :=
  vs ++ (g.nodes.filter (fun n =>
    n.parents.all (fun pk => vs.contains pk) && !(vs.contains n.key))).map
    (fun n => n.key)

/-- Iterated parents-first marking from the empty set. -/
def compIter (g : Graph) : Nat → List String
  | 0 => []
  | i + 1 => compStep g (compIter g i)

/-- A key is completable when some marking round reaches it. -/
def Completable (g : Graph) (k : String) : Prop := ∃ i, k ∈ compIter g i

/-- `b` is a declared parent of `a`. -/
def parentEdge (g : Graph) (a b : String) : Prop :=
  ∃ n ∈ g.nodes, n.key = a ∧ b ∈ n.parents

/-- `a` transitively depends on `b`. -/
def dependsOn (g : Graph) : String → String → Prop := Relation.TransGen (parentEdge g)

/-- `b` is a declared child of `a`. -/
def childEdge (g : Graph) (a b : String) : Prop :=
  ∃ n ∈ g.nodes, n.key = a ∧ b ∈ n.children

/-- `b` is reachable from `a` along child links (the walk `bfsCheckCycle`
explores). -/
def reachesFrom (g : Graph) (a b : String) : Prop :=
  Relation.ReflTransGen (childEdge g) a b

/-- Well-formedness of a store, as `BuildRootNode` guarantees it for graphs
whose descriptors carry pairwise-distinct identities equal to their graph
identities: unique keys, instance identities equal to store keys, both link
directions resolving in the store, parent links mirrored by child links, and
a parentless root. -/
structure WellFormedGraph (g : Graph) (rootKey : String) : Prop where
  keysNodup : (g.nodes.map (fun n => n.key)).Nodup
  idsEqKeys : ∀ n ∈ g.nodes, n.TaskInsID = n.key
  parentsClosed : ∀ n ∈ g.nodes, ∀ pk ∈ n.parents, ∃ p ∈ g.nodes, p.key = pk
  childrenClosed : ∀ n ∈ g.nodes, ∀ ck ∈ n.children, ∃ c ∈ g.nodes, c.key = ck
  symmetric : ∀ n ∈ g.nodes, ∀ pk ∈ n.parents, ∀ p ∈ g.nodes, p.key = pk → n.key ∈ p.children
  rootMem : ∃ r ∈ g.nodes, r.key = rootKey ∧ r.parents = []
  onlyRootParentless : ∀ n ∈ g.nodes, n.parents = [] → n.key = rootKey

/-- With unique keys, a stored node is what lookup under its key returns. -/
theorem find?_of_mem_unique (g : Graph)
    (hkeys : (g.nodes.map (fun n => n.key)).Nodup) :
    ∀ n ∈ g.nodes, g.find? n.key = some n := by
  show ∀ n ∈ g.nodes, g.nodes.find? (fun m => m.key == n.key) = some n
  have : ∀ (l : List TaskNode), (l.map (fun n => n.key)).Nodup →
      ∀ n ∈ l, l.find? (fun m => m.key == n.key) = some n := by
    intro l
    induction l with
    | nil => intro _ n hn; exact absurd hn (List.not_mem_nil n)
    | cons m ms ih =>
      intro hnd n hn
      obtain ⟨hhead, htail⟩ := List.nodup_cons.mp hnd
      rcases List.mem_cons.mp hn with rfl | hn'
      · simp [List.find?]
      · have hne : (m.key == n.key) = false := by
          refine beq_eq_false_iff_ne.mpr ?_
          intro hc
          refine hhead ?_
          show m.key ∈ List.map (fun n => n.key) ms
          rw [hc]
          exact List.mem_map_of_mem (fun n => n.key) hn'
        simp only [List.find?, hne]
        exact ih htail n hn'
  exact this g.nodes hkeys

theorem compIter_mono_succ (g : Graph) (i : Nat) :
    compIter g i ⊆ compIter g (i + 1) := by
  intro k hk
  simp only [compIter, compStep]
  exact List.mem_append_left _ hk

theorem compIter_mono (g : Graph) {i j : Nat} (h : i ≤ j) :
    compIter g i ⊆ compIter g j := by
  induction j with
  | zero => cases Nat.le_zero.mp h; exact fun k hk => hk
  | succ j ih =>
    rcases Nat.lt_or_ge i (j + 1) with hlt | hge
    · exact fun k hk => compIter_mono_succ g j (ih (Nat.lt_succ_iff.mp hlt) hk)
    · cases Nat.le_antisymm h hge
      exact fun k hk => hk

theorem completable_common_stage (g : Graph) :
    ∀ (ps : List String), (∀ pk ∈ ps, Completable g pk) →
      ∃ i, ∀ pk ∈ ps, pk ∈ compIter g i := by
  intro ps
  induction ps with
  | nil => exact fun _ => ⟨0, by simp⟩
  | cons pk rest ih =>
    intro hp
    obtain ⟨i₁, hi₁⟩ := hp pk (List.mem_cons_self pk rest)
    obtain ⟨i₂, hi₂⟩ := ih (fun q hq => hp q (List.mem_cons_of_mem pk hq))
    refine ⟨max i₁ i₂, ?_⟩
    intro q hq
    rcases List.mem_cons.mp hq with rfl | hq'
    · exact compIter_mono g (le_max_left i₁ i₂) hi₁
    · exact compIter_mono g (le_max_right i₁ i₂) (hi₂ q hq')

/-- A stored node all of whose parents are completable is completable. -/
theorem Completable_closure (g : Graph) (n : TaskNode) (hn : n ∈ g.nodes)
    (hp : ∀ pk ∈ n.parents, Completable g pk) : Completable g n.key := by
  obtain ⟨i, hi⟩ := completable_common_stage g n.parents hp
  by_cases hmem : n.key ∈ compIter g i
  · exact ⟨i, hmem⟩
  · refine ⟨i + 1, ?_⟩
    simp only [compIter, compStep]
    refine List.mem_append_right _ ?_
    refine List.mem_map.mpr ⟨n, ?_, rfl⟩
    refine List.mem_filter.mpr ⟨hn, ?_⟩
    simp only [Bool.and_eq_true, List.all_eq_true, Bool.not_eq_true']
    refine ⟨fun pk hpk => by simp [hi pk hpk], by simpa using hmem⟩
/-- Membership in a later marking round comes from the round before or from a
node whose parents were all marked. -/
theorem compIter_succ_mem (g : Graph) (i : Nat) (k : String)
    (h : k ∈ compIter g (i + 1)) :
    k ∈ compIter g i ∨
      ∃ n ∈ g.nodes, n.key = k ∧ ∀ pk ∈ n.parents, pk ∈ compIter g i := by
  simp only [compIter, compStep] at h
  rcases List.mem_append.mp h with h | h
  · exact Or.inl h
  · rcases List.mem_map.mp h with ⟨n, hn, rfl⟩
    obtain ⟨hmem, hcond⟩ := List.mem_filter.mp hn
    simp only [Bool.and_eq_true, List.all_eq_true] at hcond
    refine Or.inr ⟨n, hmem, rfl, fun pk hpk => ?_⟩
    have := hcond.1 pk hpk
    simpa using this

/-- Along one dependency step out of a completable key, the first marking
round shrinks strictly. -/
theorem parentEdge_rank_lt (g : Graph)
    (hkeys : (g.nodes.map (fun n => n.key)).Nodup)
    (a b : String) (hab : parentEdge g a b) (ha : Completable g a) :
    ∃ (hb : Completable g b), Nat.find hb < Nat.find ha := by
  obtain ⟨n, hn, rfl, hbpar⟩ := hab
  have hfind := Nat.find_spec ha
  rcases hi : Nat.find ha with _ | i
  · rw [hi] at hfind
    simp [compIter] at hfind
  · rw [hi] at hfind
    rcases compIter_succ_mem g i n.key hfind with hprev | ⟨m, hm, hmk, hpar⟩
    · exact (Nat.find_min ha (by rw [hi]; exact Nat.lt_succ_self i) hprev).elim
    · have hnm : m = n := by
        have h1 := find?_of_mem_unique g hkeys m hm
        have h2 := find?_of_mem_unique g hkeys n hn
        rw [hmk] at h1
        rw [h1] at h2
        exact (Option.some.injEq .. ▸ h2 :)
      subst hnm
      have hb : Completable g b := ⟨i, hpar b hbpar⟩
      refine ⟨hb, ?_⟩
      have : Nat.find hb ≤ i := Nat.find_min' hb (hpar b hbpar)
      exact Nat.lt_succ_of_le this

/-- Dependency chains strictly lower the first marking round, so a completable
key never transitively depends on itself. -/
theorem dependsOn_rank_lt (g : Graph)
    (hkeys : (g.nodes.map (fun n => n.key)).Nodup) :
    ∀ a b, dependsOn g a b → ∀ (ha : Completable g a),
      ∃ (hb : Completable g b), Nat.find hb < Nat.find ha := by
  intro a b hdep
  induction hdep with
  | single hab => exact fun ha => parentEdge_rank_lt g hkeys _ _ hab ha
  | tail _ hbc ih =>
    intro ha
    obtain ⟨hb, hlt⟩ := ih ha
    obtain ⟨hc, hlt'⟩ := parentEdge_rank_lt g hkeys _ _ hbc hb
    exact ⟨hc, hlt'.trans hlt⟩

/-- A completable key is on no dependency cycle. -/
theorem Completable_no_cycle (g : Graph)
    (hkeys : (g.nodes.map (fun n => n.key)).Nodup)
    (k : String) (hk : Completable g k) : ¬dependsOn g k k := by
  intro hdep
  obtain ⟨hk', hlt⟩ := dependsOn_rank_lt g hkeys k k hdep hk
  have : Nat.find hk' = Nat.find hk := by congr
  omega

/-- A list of distinct keys of the store is no longer than the store. -/
theorem nodup_keys_length_le (g : Graph) (chain : List String)
    (hnd : chain.Nodup) (hmem : ∀ x ∈ chain, ∃ n ∈ g.nodes, n.key = x) :
    chain.length ≤ g.nodes.length := by
  have h1 : chain.toFinset.card = chain.length := List.toFinset_card_of_nodup hnd
  have h2 : chain.toFinset ⊆ (g.nodes.map (fun n => n.key)).toFinset := by
    intro x hx
    rcases hmem x (List.mem_toFinset.mp hx) with ⟨n, hn, rfl⟩
    exact List.mem_toFinset.mpr (List.mem_map_of_mem (fun n => n.key) hn)
  have h3 := Finset.card_le_card h2
  have h4 := List.toFinset_card_le (g.nodes.map (fun n => n.key))
  simp only [List.length_map] at h4
  omega

/-- A non-completable stored key has a non-completable parent. -/
theorem noncompletable_parent (g : Graph)
    (hpc : ∀ n ∈ g.nodes, ∀ pk ∈ n.parents, ∃ p ∈ g.nodes, p.key = pk)
    (n : TaskNode) (hn : n ∈ g.nodes) (hnc : ¬Completable g n.key) :
    ∃ pk ∈ n.parents, (∃ p ∈ g.nodes, p.key = pk) ∧ ¬Completable g pk := by
  by_contra hc
  push_neg at hc
  refine hnc (Completable_closure g n hn ?_)
  intro pk hpk
  rcases hpc n hn pk hpk with ⟨p, hp, hpk'⟩
  by_contra hnc'
  exact hnc' (hc pk hpk ⟨p, hp, hpk'⟩)
/-- Walking non-completable parents from a chain of distinct non-completable
keys must close a dependency cycle. -/
theorem chain_to_cycle (g : Graph)
    (hpc : ∀ n ∈ g.nodes, ∀ pk ∈ n.parents, ∃ p ∈ g.nodes, p.key = pk) :
    ∀ (m : Nat) (h : String) (tail : List String),
      (h :: tail).Nodup →
      (∀ x ∈ h :: tail, (∃ n ∈ g.nodes, n.key = x) ∧ ¬Completable g x) →
      (∀ x ∈ h :: tail, x = h ∨ dependsOn g x h) →
      g.nodes.length + 1 - (h :: tail).length ≤ m →
      ∃ c, dependsOn g c c ∧ ∀ x ∈ h :: tail, (x = c ∨ dependsOn g x c) := by
  intro m
  induction m with
  | zero =>
    intro h tail hnd hmem _ hlen
    exfalso
    have hb := nodup_keys_length_le g (h :: tail) hnd (fun x hx => (hmem x hx).1)
    omega
  | succ m ih =>
    intro h tail hnd hmem hdep hlen
    obtain ⟨⟨nh, hnh, hnhk⟩, hnch⟩ := hmem h (List.mem_cons_self h tail)
    have hnch' : ¬Completable g nh.key := by rw [hnhk]; exact hnch
    obtain ⟨pk, hpk, hpkin, hpknc⟩ := noncompletable_parent g hpc nh hnh hnch'
    have hedge : parentEdge g h pk := ⟨nh, hnh, hnhk, hpk⟩
    by_cases hin : pk ∈ h :: tail
    · have hcyc : dependsOn g pk pk := by
        rcases hdep pk hin with rfl | hd
        · exact Relation.TransGen.single hedge
        · exact Relation.TransGen.trans hd (Relation.TransGen.single hedge)
      refine ⟨pk, hcyc, ?_⟩
      intro x hx
      rcases hdep x hx with rfl | hd
      · exact Or.inr (Relation.TransGen.single hedge)
      · exact Or.inr (Relation.TransGen.tail hd hedge)
    · have hnd' : (pk :: h :: tail).Nodup := List.nodup_cons.mpr ⟨hin, hnd⟩
      have hmem' : ∀ x ∈ pk :: h :: tail,
          (∃ n ∈ g.nodes, n.key = x) ∧ ¬Completable g x := by
        intro x hx
        rcases List.mem_cons.mp hx with rfl | hx'
        · exact ⟨hpkin, hpknc⟩
        · exact hmem x hx'
      have hdep' : ∀ x ∈ pk :: h :: tail, x = pk ∨ dependsOn g x pk := by
        intro x hx
        rcases List.mem_cons.mp hx with rfl | hx'
        · exact Or.inl rfl
        · rcases hdep x hx' with rfl | hd
          · exact Or.inr (Relation.TransGen.single hedge)
          · exact Or.inr (Relation.TransGen.tail hd hedge)
      have hlen' : g.nodes.length + 1 - (pk :: h :: tail).length ≤ m := by
        simp only [List.length_cons] at hlen ⊢
        omega
      obtain ⟨c, hcyc, hall⟩ := ih pk (h :: tail) hnd' hmem' hdep' hlen'
      exact ⟨c, hcyc, fun x hx => hall x (List.mem_cons_of_mem pk hx)⟩

/-- A non-completable stored key is on a dependency cycle or transitively
depends on a key that is. -/
theorem noncompletable_has_cycle (g : Graph)
    (hpc : ∀ n ∈ g.nodes, ∀ pk ∈ n.parents, ∃ p ∈ g.nodes, p.key = pk)
    (k : String) (hk : ∃ n ∈ g.nodes, n.key = k) (hnc : ¬Completable g k) :
    ∃ c, (k = c ∨ dependsOn g k c) ∧ dependsOn g c c := by
  obtain ⟨c, hcyc, hall⟩ := chain_to_cycle g hpc (g.nodes.length + 1) k []
    (by simp) (by intro x hx; rcases List.mem_singleton.mp hx with rfl; exact ⟨hk, hnc⟩)
    (by intro x hx; rcases List.mem_singleton.mp hx with rfl; exact Or.inl rfl)
    (by simp)
  exact ⟨c, hall k (List.mem_cons_self k []), hcyc⟩
theorem isParentCompleted_true (g : Graph) (visited : List String) (cur : TaskNode)
    (hkeys : (g.nodes.map (fun n => n.key)).Nodup)
    (hids : ∀ n ∈ g.nodes, n.TaskInsID = n.key)
    (hpcc : ∀ pk ∈ cur.parents, ∃ p ∈ g.nodes, p.key = pk)
    (h : isParentCompleted g visited cur = true) :
    ∀ pk ∈ cur.parents, pk ∈ visited := by
  intro pk hpk
  obtain ⟨p, hp, hpkey⟩ := hpcc pk hpk
  have hfind : g.find? pk = some p := hpkey ▸ find?_of_mem_unique g hkeys p hp
  have hall := (List.all_eq_true.mp h) pk hpk
  simp only [hfind] at hall
  have htid : p.TaskInsID = pk := (hids p hp).trans hpkey
  rw [htid] at hall
  simpa using hall

theorem isParentCompleted_false (g : Graph) (visited : List String) (cur : TaskNode)
    (hkeys : (g.nodes.map (fun n => n.key)).Nodup)
    (hids : ∀ n ∈ g.nodes, n.TaskInsID = n.key)
    (hpcc : ∀ pk ∈ cur.parents, ∃ p ∈ g.nodes, p.key = pk)
    (h : isParentCompleted g visited cur = false) :
    ∃ pk ∈ cur.parents, pk ∉ visited := by
  obtain ⟨pk, hpk, hfalse⟩ := List.all_eq_false.mp h
  obtain ⟨p, hp, hpkey⟩ := hpcc pk hpk
  have hfind : g.find? pk = some p := hpkey ▸ find?_of_mem_unique g hkeys p hp
  simp only [hfind] at hfalse
  have htid : p.TaskInsID = pk := (hids p hp).trans hpkey
  rw [htid] at hfalse
  exact ⟨pk, hpk, by simpa using hfalse⟩

theorem mem_incompleteInsert_self (inc : List (String × String)) (tid k : String) :
    (tid, k) ∈ incompleteInsert inc tid k := by
  simp only [incompleteInsert]
  by_cases h : inc.any (fun e => e.1 == tid) = true
  · rw [if_pos h]
    obtain ⟨e, he, heq⟩ := List.any_eq_true.mp h
    have heval : (fun e => if e.1 == tid then (tid, k) else e) e = (tid, k) := by
      simp only [heq, if_pos]
    exact List.mem_map.mpr ⟨e, he, heval⟩
  · rw [if_neg h]
    exact List.mem_append_right _ (List.mem_singleton.mpr rfl)

theorem mem_incompleteInsert_other (inc : List (String × String)) (tid k : String)
    (e : String × String) (he : e ∈ inc) (hne : e.1 ≠ tid) :
    e ∈ incompleteInsert inc tid k := by
  simp only [incompleteInsert]
  by_cases h : inc.any (fun e => e.1 == tid) = true
  · rw [if_pos h]
    have heval : (fun e => if e.1 == tid then (tid, k) else e) e = e := by
      simp [beq_eq_false_iff_ne.mpr hne]
    exact List.mem_map.mpr ⟨e, he, heval⟩
  · rw [if_neg h]
    exact List.mem_append_left _ he

theorem mem_of_incompleteInsert (inc : List (String × String)) (tid k : String)
    (e : String × String) (he : e ∈ incompleteInsert inc tid k) :
    e = (tid, k) ∨ (e ∈ inc ∧ e.1 ≠ tid) := by
  simp only [incompleteInsert] at he
  by_cases h : inc.any (fun e => e.1 == tid) = true
  · rw [if_pos h] at he
    rcases List.mem_map.mp he with ⟨e₀, he₀, heq⟩
    by_cases h0 : (e₀.1 == tid) = true
    · rw [if_pos h0] at heq
      exact Or.inl heq.symm
    · rw [if_neg h0] at heq
      subst heq
      exact Or.inr ⟨he₀, by simpa using h0⟩
  · rw [if_neg h] at he
    rcases List.mem_append.mp he with he' | he'
    · refine Or.inr ⟨he', ?_⟩
      intro hc
      refine h ?_
      exact List.any_eq_true.mpr ⟨e, he', by simp [hc]⟩
    · exact Or.inl (List.mem_singleton.mp he')
theorem bfsGen_cons_none (g : Graph) (k : String) (rest : List String)
    (v : List String) (inc : List (String × String)) (hf : g.find? k = none) :
    bfsGen g (k :: rest) v inc = bfsGen g rest v inc := by
  simp only [bfsGen, hf]

theorem bfsGen_cons_visit (g : Graph) (k : String) (rest : List String)
    (v : List String) (inc : List (String × String)) (nk : TaskNode)
    (hf : g.find? k = some nk) (hic : isParentCompleted g v nk = true) :
    bfsGen g (k :: rest) v inc =
      (nk.children ++ (bfsGen g rest
          (if v.contains nk.TaskInsID then v else nk.TaskInsID :: v)
          (inc.filter (fun e => e.1 != nk.TaskInsID))).1,
        (bfsGen g rest
          (if v.contains nk.TaskInsID then v else nk.TaskInsID :: v)
          (inc.filter (fun e => e.1 != nk.TaskInsID))).2) := by
  simp only [bfsGen, hf]
  rw [if_pos hic]

theorem bfsGen_cons_park (g : Graph) (k : String) (rest : List String)
    (v : List String) (inc : List (String × String)) (nk : TaskNode)
    (hf : g.find? k = some nk) (hic : isParentCompleted g v nk = false) :
    bfsGen g (k :: rest) v inc =
      bfsGen g rest v (incompleteInsert inc nk.TaskInsID k) := by
  simp only [bfsGen, hf]
  rw [if_neg (by simp [hic])]

/-- The invariant carried through the wave propagation: visited keys are
completable; a node with all parents visited is visited or pending; a parked
entry names a stored node, is diagonal, and has an unvisited parent unless it
is pending again; children of visited nodes are visited, pending or parked;
pending keys are stored. -/
def BfsInv (g : Graph) (pend : String → Prop) (visited : List String)
    (incomplete : List (String × String)) : Prop :=
  (∀ k ∈ visited, Completable g k) ∧
  (∀ n ∈ g.nodes, (∀ pk ∈ n.parents, pk ∈ visited) → n.key ∈ visited ∨ pend n.key) ∧
  (∀ e ∈ incomplete, e.1 = e.2 ∧ (∃ n ∈ g.nodes, n.key = e.2) ∧
    ((∃ n ∈ g.nodes, n.key = e.2 ∧ ∃ pk ∈ n.parents, pk ∉ visited) ∨ pend e.2)) ∧
  (∀ p ∈ g.nodes, p.key ∈ visited → ∀ ck ∈ p.children,
    ck ∈ visited ∨ pend ck ∨ ∃ e ∈ incomplete, e.2 = ck) ∧
  (∀ k, pend k → ∃ n ∈ g.nodes, n.key = k)

theorem BfsInv_congr (g : Graph) {p q : String → Prop}
    (hpq : ∀ k, p k ↔ q k) (v : List String) (inc : List (String × String))
    (h : BfsInv g p v inc) : BfsInv g q v inc := by
  obtain ⟨h1, h2, h3, h4, h5⟩ := h
  refine ⟨h1, ?_, ?_, ?_, ?_⟩
  · intro n hn hp
    rcases h2 n hn hp with hv | hp'
    · exact Or.inl hv
    · exact Or.inr ((hpq n.key).mp hp')
  · intro e he
    obtain ⟨d, ex, dis⟩ := h3 e he
    refine ⟨d, ex, ?_⟩
    rcases dis with d1 | d2
    · exact Or.inl d1
    · exact Or.inr ((hpq e.2).mp d2)
  · intro p' hp' hv ck hck
    rcases h4 p' hp' hv ck hck with h | h | h
    · exact Or.inl h
    · exact Or.inr (Or.inl ((hpq ck).mp h))
    · exact Or.inr (Or.inr h)
  · intro x hx
    exact h5 x ((hpq x).mpr hx)

theorem bfsGen_inv (g : Graph)
    (hkeys : (g.nodes.map (fun n => n.key)).Nodup)
    (hids : ∀ n ∈ g.nodes, n.TaskInsID = n.key)
    (hpc : ∀ n ∈ g.nodes, ∀ pk ∈ n.parents, ∃ p ∈ g.nodes, p.key = pk)
    (hcc : ∀ n ∈ g.nodes, ∀ ck ∈ n.children, ∃ c ∈ g.nodes, c.key = ck)
    (hsym : ∀ n ∈ g.nodes, ∀ pk ∈ n.parents, ∀ p ∈ g.nodes, p.key = pk →
      n.key ∈ p.children) :
    ∀ (queue extra visited : List String) (incomplete : List (String × String)),
      BfsInv g (fun x => x ∈ queue ∨ x ∈ extra) visited incomplete →
      BfsInv g (fun x => x ∈ (bfsGen g queue visited incomplete).1 ∨ x ∈ extra)
        (bfsGen g queue visited incomplete).2.1
        (bfsGen g queue visited incomplete).2.2 := by
  intro queue
  induction queue with
  | nil => intro extra v inc h; exact h
  | cons k rest ih =>
    intro extra v inc h
    obtain ⟨hI1, hI3, hInc, hI5, hQc⟩ := h
    obtain ⟨nk, hnk, hnkkey⟩ := hQc k (Or.inl (List.mem_cons_self k rest))
    have hf : g.find? k = some nk := hnkkey ▸ find?_of_mem_unique g hkeys nk hnk
    have htid : nk.TaskInsID = k := (hids nk hnk).trans hnkkey
    have huniq : ∀ p ∈ g.nodes, p.key = k → p = nk := by
      intro p hp hpk
      have h1 := find?_of_mem_unique g hkeys p hp
      rw [hpk, hf] at h1
      exact (Option.some.injEq .. ▸ h1.symm :)
    by_cases hic : isParentCompleted g v nk = true
    · rw [bfsGen_cons_visit g k rest v inc nk hf hic, htid]
      have hpar : ∀ pk ∈ nk.parents, pk ∈ v :=
        isParentCompleted_true g v nk hkeys hids (hpc nk hnk) hic
      set v' := if v.contains k then v else k :: v with hvdef
      set inc' := inc.filter (fun e => e.1 != k) with hincdef
      have hv' : ∀ x, x ∈ v' ↔ (x = k ∨ x ∈ v) := by
        intro x
        rw [hvdef]
        by_cases hc : v.contains k = true
        · rw [if_pos hc]
          have hkv : k ∈ v := by simpa using hc
          constructor
          · exact fun hx => Or.inr hx
          · rintro (rfl | hx)
            · exact hkv
            · exact hx
        · rw [if_neg hc]
          simp [List.mem_cons]
      have hstep : BfsInv g (fun x => x ∈ rest ∨ x ∈ nk.children ++ extra) v' inc' := by
        refine ⟨?_, ?_, ?_, ?_, ?_⟩
        · intro x hx
          rcases (hv' x).mp hx with rfl | hx'
          · have : Completable g nk.key :=
              Completable_closure g nk hnk (fun pk hpk => hI1 pk (hpar pk hpk))
            rw [hnkkey] at this
            exact this
          · exact hI1 x hx'
        · intro n hn hp'
          by_cases hall : ∀ pk ∈ n.parents, pk ∈ v
          · rcases hI3 n hn hall with hvmem | hpend
            · exact Or.inl ((hv' n.key).mpr (Or.inr hvmem))
            · rcases hpend with hq | hx
              · rcases List.mem_cons.mp hq with heq | hr
                · exact Or.inl ((hv' n.key).mpr (Or.inl heq))
                · exact Or.inr (Or.inl hr)
              · exact Or.inr (Or.inr (List.mem_append_right _ hx))
          · push_neg at hall
            obtain ⟨pk, hpkmem, hpknv⟩ := hall
            have hpkv' := hp' pk hpkmem
            rcases (hv' pk).mp hpkv' with rfl | hx
            · have := hsym n hn pk hpkmem nk hnk hnkkey
              exact Or.inr (Or.inr (List.mem_append_left _ this))
            · exact absurd hx hpknv
        · intro e he
          rw [hincdef] at he
          obtain ⟨hein, hene⟩ := List.mem_filter.mp he
          have hene' : e.1 ≠ k := by simpa using hene
          obtain ⟨hdiag, hex, hdis⟩ := hInc e hein
          refine ⟨hdiag, hex, ?_⟩
          rcases hdis with ⟨n, hn, hkeyn, pk, hpkmem, hpknv⟩ | hpend
          · by_cases hpkk : pk = k
            · subst hpkk
              have := hsym n hn pk hpkmem nk hnk hnkkey
              rw [hkeyn] at this
              exact Or.inr (Or.inr (List.mem_append_left _ this))
            · refine Or.inl ⟨n, hn, hkeyn, pk, hpkmem, ?_⟩
              intro hc
              rcases (hv' pk).mp hc with rfl | hx
              · exact hpkk rfl
              · exact hpknv hx
          · rcases hpend with hq | hx
            · rcases List.mem_cons.mp hq with heq | hr
              · exact absurd (hdiag.trans heq) hene'
              · exact Or.inr (Or.inl hr)
            · exact Or.inr (Or.inr (List.mem_append_right _ hx))
        · intro p hp hpv' ck hck
          rcases (hv' p.key).mp hpv' with hpk | hpv
          · have hpnk : p = nk := huniq p hp hpk
            subst hpnk
            exact Or.inr (Or.inl (Or.inr (List.mem_append_left _ hck)))
          · rcases hI5 p hp hpv ck hck with hcv | hcp | ⟨e, hein, he2⟩
            · exact Or.inl ((hv' ck).mpr (Or.inr hcv))
            · rcases hcp with hq | hx
              · rcases List.mem_cons.mp hq with heq | hr
                · exact Or.inl ((hv' ck).mpr (Or.inl heq))
                · exact Or.inr (Or.inl (Or.inl hr))
              · exact Or.inr (Or.inl (Or.inr (List.mem_append_right _ hx)))
            · obtain ⟨hdiag, -, -⟩ := hInc e hein
              by_cases hek : e.1 = k
              · have : ck = k := by rw [← he2, ← hdiag, hek]
                exact Or.inl ((hv' ck).mpr (Or.inl this))
              · refine Or.inr (Or.inr ⟨e, ?_, he2⟩)
                rw [hincdef]
                exact List.mem_filter.mpr ⟨hein, by simpa using hek⟩
        · intro x hx
          rcases hx with hr | hce
          · exact hQc x (Or.inl (List.mem_cons_of_mem k hr))
          · rcases List.mem_append.mp hce with hc | hx'
            · exact hcc nk hnk x hc
            · exact hQc x (Or.inr hx')
      have hres := ih (nk.children ++ extra) v' inc' hstep
      refine BfsInv_congr g ?_ _ _ hres
      intro x
      simp only [List.mem_append]
      tauto
    · have hic' : isParentCompleted g v nk = false := Bool.eq_false_iff.mpr hic
      rw [bfsGen_cons_park g k rest v inc nk hf hic', htid]
      obtain ⟨pk₀, hpk₀mem, hpk₀nv⟩ :=
        isParentCompleted_false g v nk hkeys hids (hpc nk hnk) hic'
      have hstep : BfsInv g (fun x => x ∈ rest ∨ x ∈ extra) v
          (incompleteInsert inc k k) := by
        refine ⟨hI1, ?_, ?_, ?_, ?_⟩
        · intro n hn hp'
          rcases hI3 n hn hp' with hvmem | hpend
          · exact Or.inl hvmem
          · rcases hpend with hq | hx
            · rcases List.mem_cons.mp hq with heq | hr
              · exfalso
                have hnnk : n = nk := huniq n hn heq
                subst hnnk
                exact hpk₀nv (hp' pk₀ hpk₀mem)
              · exact Or.inr (Or.inl hr)
            · exact Or.inr (Or.inr hx)
        · intro e he
          rcases mem_of_incompleteInsert inc k k e he with rfl | ⟨hein, hene⟩
          · exact ⟨rfl, ⟨nk, hnk, hnkkey⟩,
              Or.inl ⟨nk, hnk, hnkkey, pk₀, hpk₀mem, hpk₀nv⟩⟩
          · obtain ⟨hdiag, hex, hdis⟩ := hInc e hein
            refine ⟨hdiag, hex, ?_⟩
            rcases hdis with d1 | hpend
            · exact Or.inl d1
            · rcases hpend with hq | hx
              · rcases List.mem_cons.mp hq with heq | hr
                · exact absurd (hdiag.trans heq) hene
                · exact Or.inr (Or.inl hr)
              · exact Or.inr (Or.inr hx)
        · intro p hp hpv ck hck
          rcases hI5 p hp hpv ck hck with hcv | hcp | ⟨e, hein, he2⟩
          · exact Or.inl hcv
          · rcases hcp with hq | hx
            · rcases List.mem_cons.mp hq with heq | hr
              · refine Or.inr (Or.inr ⟨(k, k), mem_incompleteInsert_self inc k k, ?_⟩)
                exact heq.symm
              · exact Or.inr (Or.inl (Or.inl hr))
            · exact Or.inr (Or.inl (Or.inr hx))
          · obtain ⟨hdiag, -, -⟩ := hInc e hein
            by_cases hek : e.1 = k
            · refine Or.inr (Or.inr ⟨(k, k), mem_incompleteInsert_self inc k k, ?_⟩)
              rw [← he2, ← hdiag, hek]
            · exact Or.inr (Or.inr ⟨e, mem_incompleteInsert_other inc k k e hein hek, he2⟩)
        · intro x hx
          rcases hx with hr | hx'
          · exact hQc x (Or.inl (List.mem_cons_of_mem k hr))
          · exact hQc x (Or.inr hx')
      exact ih extra v (incompleteInsert inc k k) hstep
theorem bfsCheckCycle_inv (g : Graph)
    (hkeys : (g.nodes.map (fun n => n.key)).Nodup)
    (hids : ∀ n ∈ g.nodes, n.TaskInsID = n.key)
    (hpc : ∀ n ∈ g.nodes, ∀ pk ∈ n.parents, ∃ p ∈ g.nodes, p.key = pk)
    (hcc : ∀ n ∈ g.nodes, ∀ ck ∈ n.children, ∃ c ∈ g.nodes, c.key = ck)
    (hsym : ∀ n ∈ g.nodes, ∀ pk ∈ n.parents, ∀ p ∈ g.nodes, p.key = pk →
      n.key ∈ p.children) :
    ∀ (fuel : Nat) (queue visited : List String) (incomplete : List (String × String))
      (v' : List String) (inc' : List (String × String)),
      BfsInv g (fun x => x ∈ queue) visited incomplete →
      bfsCheckCycle g fuel queue visited incomplete = some (v', inc') →
      BfsInv g (fun _ => False) v' inc' := by
  intro fuel
  induction fuel with
  | zero =>
    intro queue v inc v' inc' hinv h
    cases queue with
    | nil =>
      simp only [bfsCheckCycle] at h
      cases h
      exact BfsInv_congr g (by simp) _ _ hinv
    | cons k rest => simp [bfsCheckCycle] at h
  | succ fuel ih =>
    intro queue v inc v' inc' hinv h
    cases queue with
    | nil =>
      simp only [bfsCheckCycle] at h
      cases h
      exact BfsInv_congr g (by simp) _ _ hinv
    | cons k rest =>
      simp only [bfsCheckCycle] at h
      have hg := bfsGen_inv g hkeys hids hpc hcc hsym (k :: rest) [] v inc
        (BfsInv_congr g (by simp) _ _ hinv)
      exact ih _ _ _ _ _ (BfsInv_congr g (by simp) _ _ hg) h

theorem BfsInv_init (g : Graph) (rootKey : String)
    (hroot : ∃ r ∈ g.nodes, r.key = rootKey ∧ r.parents = [])
    (honly : ∀ n ∈ g.nodes, n.parents = [] → n.key = rootKey) :
    BfsInv g (fun x => x ∈ [rootKey]) [] [] := by
  refine ⟨?_, ?_, ?_, ?_, ?_⟩
  · intro k hk
    exact absurd hk (List.not_mem_nil k)
  · intro n hn hp
    have hpe : n.parents = [] := by
      cases hpar : n.parents with
      | nil => rfl
      | cons pk rest =>
        exact absurd (hp pk (by rw [hpar]; exact List.mem_cons_self pk rest))
          (List.not_mem_nil pk)
    exact Or.inr (by simpa using honly n hn hpe)
  · intro e he
    exact absurd he (List.not_mem_nil e)
  · intro p _ hp
    exact absurd hp (List.not_mem_nil p.key)
  · intro x hx
    obtain ⟨r, hr, hrk, -⟩ := hroot
    rcases List.mem_singleton.mp hx with rfl
    exact ⟨r, hr, hrk⟩

/-- Any family closed under parents-first marking contains every marking round. -/
theorem compIter_subset_closed (g : Graph) (v : List String)
    (hclosed : ∀ n ∈ g.nodes, (∀ pk ∈ n.parents, pk ∈ v) → n.key ∈ v) :
    ∀ i, compIter g i ⊆ v := by
  intro i
  induction i with
  | zero => intro x hx; exact absurd hx (List.not_mem_nil x)
  | succ i ih =>
    intro x hx
    rcases compIter_succ_mem g i x hx with hprev | ⟨n, hn, rfl, hpar⟩
    · exact ih hprev
    · exact hclosed n hn (fun pk hpk => ih (hpar pk hpk))
/-- If a visited key reaches an unvisited key along child links, some key is
parked (children of visited keys are visited or parked once the queue has
drained). -/
theorem reach_unvisited_parked (g : Graph) (v' : List String)
    (inc' : List (String × String))
    (h5 : ∀ p ∈ g.nodes, p.key ∈ v' → ∀ ck ∈ p.children,
      ck ∈ v' ∨ ∃ e ∈ inc', e.2 = ck) :
    ∀ a b, reachesFrom g a b → a ∈ v' → b ∉ v' → ∃ e, e ∈ inc' := by
  intro a b h
  induction h using Relation.ReflTransGen.head_induction_on with
  | refl => intro ha hb; exact absurd ha hb
  | head hstep _ ih =>
    intro ha hb
    rename_i x c _
    obtain ⟨n, hn, hnx, hcmem⟩ := hstep
    by_cases hcv : c ∈ v'
    · exact ih hcv hb
    · rcases h5 n hn (by rw [hnx]; exact ha) c hcmem with hcv' | ⟨e, he, -⟩
      · exact absurd hcv' hcv
      · exact ⟨e, he⟩

/-- Claim C6 (amended): whenever the wave propagation completes, on a
dependency-acyclic graph `HasCycle` reports no cycle; and when a dependency
cycle is reachable from the start node along child links, it reports some
node that is on a cycle or transitively depends on one.  (A cycle not
reachable from the start node can be missed — see the counterexample.) -/
theorem claim6_theorem (g : Graph) (rootKey : String) (fuel : Nat)
    (wf : WellFormedGraph g rootKey)
    (v' : List String) (inc' : List (String × String))
    (hrun : bfsCheckCycle g fuel [rootKey] [] [] = some (v', inc')) :
    ((¬∃ c, dependsOn g c c) → HasCycle fuel g rootKey = some none) ∧
    ((∃ c, reachesFrom g rootKey c ∧ dependsOn g c c) →
      ∃ w, HasCycle fuel g rootKey = some (some w) ∧
        ∃ c, (w = c ∨ dependsOn g w c) ∧ dependsOn g c c) := by
  obtain ⟨hkeys, hids, hpc, hcc, hsym, hroot, honly⟩ := wf
  have hfinal := bfsCheckCycle_inv g hkeys hids hpc hcc hsym fuel [rootKey] [] [] v' inc'
    (BfsInv_init g rootKey hroot honly) hrun
  obtain ⟨hI1, hI3, hInc, hI5, -⟩ := hfinal
  have hclosed : ∀ n ∈ g.nodes, (∀ pk ∈ n.parents, pk ∈ v') → n.key ∈ v' := by
    intro n hn hp
    rcases hI3 n hn hp with h | h
    · exact h
    · exact h.elim
  have hCsub : ∀ k, Completable g k → k ∈ v' := by
    rintro k ⟨i, hi⟩
    exact compIter_subset_closed g v' hclosed i hi
  have hHC : HasCycle fuel g rootKey = some ((inc'.head?).map (fun e => e.1)) := by
    simp only [HasCycle, hrun]
  constructor
  · intro hacyc
    have hinc_nil : inc' = [] := by
      cases hinc : inc' with
      | nil => rfl
      | cons e rest =>
        exfalso
        obtain ⟨hdiag, hex, hdis⟩ := hInc e (by rw [hinc]; exact List.mem_cons_self e rest)
        rcases hdis with ⟨n, hn, hkeyn, pk, hpkmem, hpknv⟩ | hfalse
        · have hpkstored : ∃ p ∈ g.nodes, p.key = pk := hpc n hn pk hpkmem
          have hpknc : ¬Completable g pk := fun hcomp => hpknv (hCsub pk hcomp)
          obtain ⟨c, -, hcyc⟩ := noncompletable_has_cycle g hpc pk hpkstored hpknc
          exact hacyc ⟨c, hcyc⟩
        · exact hfalse
    rw [hHC, hinc_nil]
    rfl
  · rintro ⟨c, hreach, hcyc⟩
    have hcnv : c ∉ v' := by
      intro hcv
      exact Completable_no_cycle g hkeys c (hI1 c hcv) hcyc
    have hrootv : rootKey ∈ v' := by
      obtain ⟨r, hr, hrk, hrp⟩ := hroot
      have := hclosed r hr (by
        rw [hrp]
        intro pk hpk
        exact absurd hpk (List.not_mem_nil pk))
      rw [hrk] at this
      exact this
    have h5 : ∀ p ∈ g.nodes, p.key ∈ v' → ∀ ck ∈ p.children,
        ck ∈ v' ∨ ∃ e ∈ inc', e.2 = ck := by
      intro p hp hpv ck hck
      rcases hI5 p hp hpv ck hck with h | h | h
      · exact Or.inl h
      · exact h.elim
      · exact Or.inr h
    obtain ⟨e₀, he₀⟩ :=
      reach_unvisited_parked g v' inc' h5 rootKey c hreach hrootv hcnv
    cases hinc : inc' with
    | nil =>
      rw [hinc] at he₀
      exact absurd he₀ (List.not_mem_nil e₀)
    | cons eh rest =>
      obtain ⟨hdiag, hex, hdis⟩ := hInc eh (by rw [hinc]; exact List.mem_cons_self eh rest)
      rcases hdis with ⟨n, hn, hkeyn, pk, hpkmem, hpknv⟩ | hfalse
      · have hpknc : ¬Completable g pk := fun hcomp => hpknv (hCsub pk hcomp)
        have hwnc : ¬Completable g eh.2 := by
          intro hcomp
          have hedge : parentEdge g eh.2 pk := ⟨n, hn, hkeyn, hpkmem⟩
          obtain ⟨hpcomp, -⟩ := parentEdge_rank_lt g hkeys eh.2 pk hedge hcomp
          exact hpknc hpcomp
        obtain ⟨c', hc'rel, hc'cyc⟩ :=
          noncompletable_has_cycle g hpc eh.2 ⟨n, hn, hkeyn⟩ hwnc
        refine ⟨eh.1, ?_, ⟨c', ?_, hc'cyc⟩⟩
        · rw [hHC, hinc]
          rfl
        · rw [hdiag]
          exact hc'rel
      · exact hfalse.elim

/-- Fixture: a dependency cycle A ⇄ B unreachable from the root (only S is). -/
def cycTasks : List TaskInfoGetter :=
  [mkTaskInfo "S" [] TaskInstanceStatus.Init,
   mkTaskInfo "A" ["B"] TaskInstanceStatus.Init,
   mkTaskInfo "B" ["A"] TaskInstanceStatus.Init]

/-- The graph `BuildRootNode` builds from `cycTasks`. -/
def gCyc : Graph :=
  ⟨[⟨virtualTaskRootID, virtualTaskRootID, TaskInstanceStatus.Success, ["S"], []⟩,
    ⟨"S", "S", TaskInstanceStatus.Init, [], [virtualTaskRootID]⟩,
    ⟨"A", "A", TaskInstanceStatus.Init, ["B"], ["B"]⟩,
    ⟨"B", "B", TaskInstanceStatus.Init, ["A"], ["A"]⟩]⟩

/-- Fixture: the same cycle A ⇄ B, but A also depends on S, so the cycle is
reachable from the root. -/
def cyc2Tasks : List TaskInfoGetter :=
  [mkTaskInfo "S" [] TaskInstanceStatus.Init,
   mkTaskInfo "A" ["S", "B"] TaskInstanceStatus.Init,
   mkTaskInfo "B" ["A"] TaskInstanceStatus.Init]

/-- The graph `BuildRootNode` builds from `cyc2Tasks`. -/
def gCyc2 : Graph :=
  ⟨[⟨virtualTaskRootID, virtualTaskRootID, TaskInstanceStatus.Success, ["S"], []⟩,
    ⟨"S", "S", TaskInstanceStatus.Init, ["A"], [virtualTaskRootID]⟩,
    ⟨"A", "A", TaskInstanceStatus.Init, ["B"], ["S", "B"]⟩,
    ⟨"B", "B", TaskInstanceStatus.Init, ["A"], ["A"]⟩]⟩

/-- Claim C6 counterexample: `gCyc` is built by `BuildRootNode` and contains
the dependency cycle A ⇄ B, yet `HasCycle` (run to completion, no fuel
exhaustion) reports no cycle, because the cycle is unreachable from the
root along child links. -/
theorem claim6_counterexample :
    BuildRootNode cycTasks = Except.ok gCyc ∧
    dependsOn gCyc "A" "A" ∧
    HasCycle 10 gCyc virtualTaskRootID = some none :=
  ⟨rfl,
   Relation.TransGen.head (b := "B") (by unfold parentEdge; decide)
     (Relation.TransGen.single (by unfold parentEdge; decide)),
   by decide⟩

/-- Claim C6 witness: on `gCyc2`, whose cycle A ⇄ B is reachable from the
root, the run completes and reports node A, which lies on the cycle. -/
theorem claim6_witness :
    WellFormedGraph gCyc2 virtualTaskRootID ∧
    bfsCheckCycle gCyc2 10 [virtualTaskRootID] [] [] =
      some (["S", virtualTaskRootID], [("A", "A")]) ∧
    (∃ c, reachesFrom gCyc2 virtualTaskRootID c ∧ dependsOn gCyc2 c c) ∧
    (∃ w, HasCycle 10 gCyc2 virtualTaskRootID = some (some w) ∧
      ∃ c, (w = c ∨ dependsOn gCyc2 w c) ∧ dependsOn gCyc2 c c) := by
  have wf : WellFormedGraph gCyc2 virtualTaskRootID := by
    constructor <;> decide
  have hreach : reachesFrom gCyc2 virtualTaskRootID "A" :=
    Relation.ReflTransGen.head (b := "S") (by unfold childEdge; decide)
      (Relation.ReflTransGen.single (by unfold childEdge; decide))
  have hcyc : dependsOn gCyc2 "A" "A" :=
    Relation.TransGen.head (b := "B") (by unfold parentEdge; decide)
      (Relation.TransGen.single (by unfold parentEdge; decide))
  refine ⟨wf, rfl, ⟨"A", hreach, hcyc⟩, ?_⟩
  exact (claim6_theorem gCyc2 virtualTaskRootID 10 wf
    ["S", virtualTaskRootID] [("A", "A")] rfl).2 ⟨"A", hreach, hcyc⟩
end Fastflow
